import Mathlib

/-!
Verification of the string_space repository against its specification.

Modelling conventions, fixed once for the whole file:

* Rust strings (`&str`, `String`, byte slices pointing into the arena) are
  modelled as `List Char`.  Lexicographic comparison of UTF-8 byte slices
  coincides with lexicographic comparison of the scalar-value sequences, so
  the byte-level orderings of the source are modelled char-wise; byte LENGTHS
  (`str::len`) are modelled exactly via `Char.utf8Size`.
* The arena (raw buffer, offsets, growth) is abstracted away: an index entry
  is modelled as the byte sequence it points at together with its metadata,
  which is exactly the data every claim under study speaks about.
* `f64` arithmetic is modelled by exact rational arithmetic over `FRat`
  (integer numerator / positive natural denominator, not normalised, so that
  the kernel can evaluate every score).  The one non-algebraic operation,
  `f64::ln` inside `apply_metadata_adjustments`, is threaded through the
  ranker as an explicit function parameter `lnQ : FRat → FRat`; every theorem
  below is stated for arbitrary `lnQ` or instantiates it explicitly.
  `f64::EPSILON` is `2⁻⁵²`, kept exact.
* `days_since_epoch()` is threaded as an explicit parameter `today : ℕ`.
* `HashMap::into_values` iterates in an unspecified order; the ranker is
  therefore parametrised by a function `reorder` on the canonical
  (insertion-ordered) value list, and determinism claims quantify over
  `reorder`s that permute their input.
* Rust's stable `sort_by` with comparator `c` is modelled by the stable
  insertion sort `sSortBy` with `le a b := c a b ≠ .gt`; any two stable
  sorts agree on every input, so the choice of stable algorithm is
  immaterial.
* Unicode character classes used only on ASCII inputs in this development
  (`char::to_lowercase`, `char::is_alphanumeric`) are modelled by their ASCII
  fragments; the exact classes `char::is_control` and `char::is_whitespace`
  are modelled in full.
-/

/-- Rust `char::is_whitespace`: the Unicode White_Space property, in full. -/
def isWsChar (c : Char) : Bool :=
  let n := c.toNat
  (9 ≤ n && n ≤ 13) || n = 32 || n = 0x85 || n = 0xA0 || n = 0x1680 ||
    (0x2000 ≤ n && n ≤ 0x200A) || n = 0x2028 || n = 0x2029 || n = 0x202F ||
    n = 0x205F || n = 0x3000

/-- Rust `char::is_control`: the Unicode Cc category, in full. -/
def isControlChar (c : Char) : Bool :=
  c.toNat ≤ 0x1F || (0x7F ≤ c.toNat && c.toNat ≤ 0x9F)

/-- ASCII fragment of Rust `char::is_alphanumeric` (only ever applied to
single-byte queries in the claims below). -/
def isAlnumChar (c : Char) : Bool :=
  (48 ≤ c.toNat && c.toNat ≤ 57) || (65 ≤ c.toNat && c.toNat ≤ 90) ||
    (97 ≤ c.toNat && c.toNat ≤ 122)

/-- ASCII fragment of Rust `char::to_lowercase` / `str::to_lowercase`. -/
def lowerChar (c : Char) : Char :=
  if 65 ≤ c.toNat && c.toNat ≤ 90 then Char.ofNat (c.toNat + 32) else c

/-- Model of `str::to_lowercase` (charwise, ASCII fragment). -/
def lowerStr (s : List Char) : List Char := s.map lowerChar

/-- Rust `str::len`: the UTF-8 byte length of a string. -/
def utf8Len (s : List Char) : ℕ := (s.map Char.utf8Size).sum

/-- Three-way comparison of two scalar values, as comparison of the
corresponding UTF-8 byte sequences orders them. -/
def chCmp (c d : Char) : Ordering :=
  if c.toNat < d.toNat then .lt else if d.toNat < c.toNat then .gt else .eq

/-- Lexicographic three-way comparison of byte sequences (`<[u8] as Ord>::cmp`). -/
def lexCmp : List Char → List Char → Ordering
  | [], [] => .eq
  | [], _ :: _ => .lt
  | _ :: _, [] => .gt
  | x :: xs, y :: ys => match chCmp x y with
    | .eq => lexCmp xs ys
    | o => o

/-- Rust `str::starts_with` on strings. -/
def strStartsWith : List Char → List Char → Bool
  | [], _ => true
  | _ :: _, [] => false
  | p :: ps, s :: ss => (p = s) && strStartsWith ps ss

/-- Split a character stream at every occurrence of `sep` (separators are
dropped; empty segments are kept). -/
def splitOnChar (sep : Char) : List Char → List (List Char)
  | [] => [[]]
  | c :: cs =>
    if c = sep then [] :: splitOnChar sep cs
    else match splitOnChar sep cs with
      | [] => [[c]]
      | w :: ws => (c :: w) :: ws

/-- Worker for `splitWs`; `cur` is the reversed word being accumulated. -/
def splitWsGo (cur : List Char) : List Char → List (List Char)
  | [] => if cur = [] then [] else [cur.reverse]
  | c :: cs =>
    if isWsChar c then
      if cur = [] then splitWsGo [] cs else cur.reverse :: splitWsGo [] cs
    else splitWsGo (c :: cur) cs

/-- Rust `str::split_whitespace`: maximal non-whitespace words, in order. -/
def splitWs (l : List Char) : List (List Char) := splitWsGo [] l

/-- Rust `str::trim`. -/
def trimChars (s : List Char) : List Char :=
  ((s.dropWhile isWsChar).reverse.dropWhile isWsChar).reverse

/-- Worker for `collapseWs`; `inRun` records whether the previous character
was whitespace. -/
def collapseWsGo (inRun : Bool) : List Char → List Char
  | [] => []
  | c :: cs =>
    if isWsChar c then
      if inRun then collapseWsGo true cs else ' ' :: collapseWsGo true cs
    else c :: collapseWsGo false cs

/-- Collapse every maximal run of whitespace into a single space: the model of
the dispatcher's `regex::Regex::new(r"\s+")` replacement by `" "`. -/
def collapseWs (l : List Char) : List Char := collapseWsGo false l

/-- Decimal digit character for `d < 10`. -/
def digitCh (d : ℕ) : Char := Char.ofNat (48 + d)

/-- Little-endian decimal digits of `n`, with explicit fuel so that the kernel
can evaluate the definition (the fuel `n + 1` always suffices). -/
def digitsLEGo : ℕ → ℕ → List ℕ
  | 0, _ => []
  | fuel + 1, n => if n = 0 then [] else n % 10 :: digitsLEGo fuel (n / 10)

/-- Little-endian decimal digits of `n` (empty for `n = 0`). -/
def digitsLE (n : ℕ) : List ℕ := digitsLEGo (n + 1) n

/-- Decimal rendering of a natural number, as Rust `Display` for unsigned
integers produces it. -/
def natDigits (n : ℕ) : List Char :=
  if n = 0 then ['0'] else ((digitsLE n).reverse).map digitCh

/-- Numeric value of a decimal digit character. -/
def digitVal (c : Char) : ℕ := c.toNat - 48

/-- Rust `str::parse` for an unsigned integer type with maximal value `maxv`
(an optional leading `+`, then one or more decimal digits, overflow rejected). -/
def parseUInt (maxv : ℕ) (s : List Char) : Option ℕ :=
  let t := if s.head? = some '+' then s.tail else s
  if t = [] then none
  else if t.all (fun c => 48 ≤ c.toNat && c.toNat ≤ 57) then
    let v := t.foldl (fun a c => a * 10 + digitVal c) 0
    if v ≤ maxv then some v else none
  else none

example : splitWs " ab  cd ".data = ["ab".data, "cd".data] := by decide
example : parseUInt 65535 "65535".data = some 65535 := by decide
example : parseUInt 65535 "65536".data = none := by decide
example : natDigits 20378 = "20378".data := by decide
example : lexCmp "hhhl".data "hl".data = .lt := by decide
example : collapseWs "a  b, c".data = "a b, c".data := by decide
example : trimChars "  ab ".data = "ab".data := by decide

/-- Exact rational number used to model `f64` values: an integer numerator
over a natural denominator.  Values are not normalised (so every operation
kernel-evaluates); all operations go through `fMk`, which keeps the
denominator positive. -/
structure FRat where
  num : ℤ
  den : ℕ
deriving DecidableEq

/-- Smart constructor keeping the denominator positive. -/
def fMk (n : ℤ) (d : ℕ) : FRat := ⟨n, if d = 0 then 1 else d⟩

/-- Embedding of a natural number. -/
def fN (n : ℕ) : FRat := ⟨(n : ℤ), 1⟩

def fAdd (a b : FRat) : FRat :=
  fMk (a.num * b.den + b.num * a.den) (a.den * b.den)

def fSub (a b : FRat) : FRat :=
  fMk (a.num * b.den - b.num * a.den) (a.den * b.den)

def fMul (a b : FRat) : FRat := fMk (a.num * b.num) (a.den * b.den)

/-- Division.  A zero divisor yields `0` (the source's `f64` would produce
`inf`/`NaN` there; on every reachable path modelled in this file the divisor
is nonzero except where explicitly noted). -/
def fDiv (a b : FRat) : FRat :=
  if 0 < b.num then fMk (a.num * b.den) (a.den * b.num.toNat)
  else if b.num < 0 then fMk (-(a.num * b.den)) (a.den * (-b.num).toNat)
  else fMk 0 1

def fLe (a b : FRat) : Prop := a.num * (b.den : ℤ) ≤ b.num * (a.den : ℤ)

def fLt (a b : FRat) : Prop := a.num * (b.den : ℤ) < b.num * (a.den : ℤ)

/-- Semantic equality of modelled `f64` values (cross-multiplication). -/
def fEq (a b : FRat) : Prop := a.num * (b.den : ℤ) = b.num * (a.den : ℤ)

instance (a b : FRat) : Decidable (fLe a b) :=
  inferInstanceAs (Decidable (_ ≤ _))

instance (a b : FRat) : Decidable (fLt a b) :=
  inferInstanceAs (Decidable (_ < _))

instance (a b : FRat) : Decidable (fEq a b) :=
  inferInstanceAs (Decidable (_ = _))

/-- `f64::abs`. -/
def fAbs (a : FRat) : FRat := ⟨a.num.natAbs, a.den⟩

/-- `f64::min` (total on the rationals; `f64` NaN propagation never arises on
the modelled paths). -/
def fMinF (a b : FRat) : FRat := if decide (fLe a b) then a else b

/-- `f64::max`. -/
def fMaxF (a b : FRat) : FRat := if decide (fLe a b) then b else a

/-- `f64::clamp lo hi`. -/
def fClamp (x lo hi : FRat) : FRat :=
  if decide (fLt x lo) then lo else if decide (fLt hi x) then hi else x

/-- `f64::EPSILON` = 2⁻⁵². -/
def fEps : FRat := fMk 1 (2 ^ 52)

/-- A stored record: the byte sequence an index entry points at, plus its
metadata.  This is the value content of `StringRefInfo`/`StringRef`; the
arena indirection (`pointer`/`length` into the buffer) is abstracted away. -/
structure SRec where
  str : List Char
  frequency : ℕ
  ageDays : ℕ
deriving DecidableEq, Inhabited

/-- Insert `x` into `l` in front of the first element `y` with `le x y`.
Together with `sSortBy` this is a stable sort; a stable sort's output is
determined by the comparator and the input order, so this models Rust's
stable `slice::sort_by` exactly. -/
def sInsert (le : α → α → Bool) (x : α) : List α → List α
  | [] => [x]
  | y :: ys => if le x y then x :: y :: ys else y :: sInsert le x ys

/-- Stable sort by the boolean preorder `le` (model of `slice::sort_by`). -/
def sSortBy (le : α → α → Bool) : List α → List α
  | [] => []
  | x :: xs => sInsert le x (sSortBy le xs)

/-- One step of the `binary_search` loop of `StringSpaceInner`, with explicit
fuel so the kernel can evaluate it; `binSearch` supplies enough fuel. -/
def binSearchGo (store : List SRec) (f : List Char → Ordering) :
    ℕ → ℕ → ℕ → ℕ
  | 0, left, _ => left
  | fuel + 1, left, right =>
    if left < right then
      match f (store.getD (left + (right - left) / 2) default).str with
      | .lt => binSearchGo store f fuel (left + (right - left) / 2 + 1) right
      | _ => binSearchGo store f fuel left (left + (right - left) / 2)
    else left

/-- `StringSpaceInner::binary_search`: first index at which the comparator
does not answer `Less`, located by bisection. -/
def binSearch (store : List SRec) (f : List Char → Ordering) : ℕ :=
  binSearchGo store f store.length 0 store.length

/-- `StringSpaceInner::insert_string`.  On an exact match the entry is mutated
in place: the frequency addition is `u16` `+=`, which in release builds wraps
modulo 2¹⁶ (debug builds panic), and `age_days` is set to `today` regardless
of the `age` argument.  Otherwise a new entry is inserted at the reported
position, with `age_days` from `age` if provided, else `today`. -/
def insertString (today : ℕ) (s : List Char) (freq : ℕ) (age : Option ℕ)
    (store : List SRec) : List SRec :=
  let i := binSearch store (fun e => lexCmp e s)
  if i < store.length ∧ (store.getD i default).str = s then
    store.set i
      { str := s,
        frequency := ((store.getD i default).frequency + freq) % 65536,
        ageDays := today }
  else
    store.take i ++ { str := s, frequency := freq, ageDays := age.getD today } :: store.drop i

/-- Public `StringSpace::insert_string`: byte-length bounds check (3..=50),
then the inner insert; the `Bool` reports `Ok`/`Err`. -/
def insertChecked (today : ℕ) (s : List Char) (freq : ℕ)
    (store : List SRec) : Bool × List SRec :=
  if utf8Len s < 3 || 50 < utf8Len s then (false, store)
  else (true, insertString today s freq none store)

/-- The forward scan of `find_by_prefix_no_sort` from the start index:
records shorter than the prefix are skipped, matches are collected, and the
first non-match after at least one match stops the scan. -/
def prefixScanGo (p : List Char) (matched : Bool) : List SRec → List SRec
  | [] => []
  | r :: rs =>
    if utf8Len r.str < utf8Len p then prefixScanGo p matched rs
    else if r.str.take p.length = p then r :: prefixScanGo p true rs
    else if matched then [] else prefixScanGo p matched rs

/-- The comparator `find_by_prefix_no_sort` hands to the binary search:
compare the common-length slices, and report `Greater` for a longer string
that matches the whole prefix. -/
def prefixSearchCmp (s p : List Char) : Ordering :=
  let m := min s.length p.length
  let c := lexCmp (s.take m) (p.take m)
  if c = .eq then (if p.length < s.length then .gt else c) else c

/-- `StringSpaceInner::find_by_prefix_no_sort`. -/
def findByPrefixNoSort (store : List SRec) (p : List Char) : List SRec :=
  if p = [] then []
  else prefixScanGo p false
    (store.drop (binSearch store (fun s => prefixSearchCmp s p)))

/-- Comparator of `find_by_prefix`'s final sort: frequency descending. -/
def freqDescLe (a b : SRec) : Bool := decide (b.frequency ≤ a.frequency)

/-- `StringSpaceInner::find_by_prefix`: prefix scan, then a stable sort by
frequency descending. -/
def findByPrefixSorted (store : List SRec) (p : List Char) : List SRec :=
  sSortBy freqDescLe (findByPrefixNoSort store p)

/-- Worker for `is_subsequence`: `qc :: qrest` is the remaining query, the
scan runs over the candidate with `i` the current character index. -/
def isSubseqGo (qc : Char) (qrest : List Char) : List Char → ℕ → Option (List ℕ)
  | [], _ => none
  | c :: cs, i =>
    if qc = c then
      match qrest with
      | [] => some [i]
      | q2 :: qr2 =>
        match isSubseqGo q2 qr2 cs (i + 1) with
        | some idx => some (i :: idx)
        | none => none
    else isSubseqGo qc qrest cs (i + 1)

/-- `is_subsequence`/`is_subsequence_chars`: greedy left-to-right subsequence
match, returning the character indices of the matches.  An empty query finds
no match (the source returns `None` for it). -/
def isSubseqIdx (q s : List Char) : Option (List ℕ) :=
  match q with
  | [] => none
  | qc :: qrest => isSubseqGo qc qrest s 0

/-- Stand-in for `f64::MAX`; only its being larger than every other score in
play matters. -/
def fMAX : FRat := fN (2 ^ 1024)

/-- `score_match_span`: span of the match indices plus a tenth of the
candidate's BYTE length (this is the score `fuzzy_subsequence_search` sorts
by). -/
def scoreMatchSpan (idx : List ℕ) (byteLen : ℕ) : FRat :=
  if idx = [] then fMAX
  else fAdd (fN (idx.getLast?.getD 0 - idx.head?.getD 0 + 1))
    (fMul (fN byteLen) (fMk 1 10))

/-- `score_match_span_chars`: average gap between consecutive match indices,
normalised by the candidate's character length; `0` when the query is not a
subsequence.  (For a single match index the source computes `0.0/0.0 = NaN`;
that path is unreachable from the ranker, whose queries have at least two
characters, and the model returns `0` there.) -/
def scoreMatchSpanChars (q s : List Char) : FRat :=
  match isSubseqIdx q s with
  | some idx =>
    if idx = [] then fN 0
    else
      let cum : ℕ := ((idx.zip idx.tail).map (fun p => p.2 - p.1)).sum
      fDiv (fDiv (fN cum) (fN (idx.length - 1))) (fN s.length)
  | none => fN 0

/-- `StringSpaceInner::fuzzy_subsequence_search`: restrict to records sharing
the first character, keep subsequence matches, stable-sort ascending by
`score_match_span`, truncate to 10. -/
def fuzzySubseqSearch (store : List SRec) (q : List Char) : List SRec :=
  if q = [] then []
  else
    let found := (findByPrefixNoSort store (q.take 1)).filterMap (fun r =>
      match isSubseqIdx q r.str with
      | some idx => some (r, scoreMatchSpan idx (utf8Len r.str))
      | none => none)
    ((sSortBy (fun a b => decide (fLe a.2 b.2)) found).take 10).map (fun m => m.1)

/-- `should_skip_candidate`: the general length filter (byte lengths). -/
def shouldSkipCandidate (candidateLen queryLen : ℕ) : Bool :=
  if candidateLen < queryLen then true
  else if queryLen ≤ 2 && candidateLen > queryLen * 8 then true
  else if queryLen ≤ 3 && candidateLen > queryLen * 5 then true
  else if queryLen > 3 && candidateLen > queryLen * 4 then true
  else false

/-- `should_skip_candidate_fuzzy`: the looser fuzzy length filter. -/
def shouldSkipCandidateFuzzy (candidateLen queryLen : ℕ) : Bool :=
  if candidateLen < queryLen then true
  else if queryLen ≤ 2 && candidateLen > queryLen * 15 then true
  else if queryLen ≤ 3 && candidateLen > queryLen * 12 then true
  else if queryLen > 3 && candidateLen > queryLen * 8 then true
  else false

/-- First index `j` in `[lo, hi)` with `b[j]` unused and equal to `c`: the
inner window scan of the Jaro match loop. -/
def jwFindMatch (b : List Char) (used : List Bool) (c : Char) (lo hi : ℕ) :
    Option ℕ :=
  (List.range' lo (hi - lo)).find? (fun j =>
    !(used.getD j true) && (b.getD j (Char.ofNat 0) = c))

/-- The Jaro matching loop: walk the first string, greedily claiming an
unused character of `b` inside the window; returns the final usage flags for
`b` and the matched characters of the first string in order. -/
def jaroMatchGo (b : List Char) (window : ℕ) :
    List Char → ℕ → List Bool → List Bool × List Char
  | [], _, used => (used, [])
  | c :: rest, i, used =>
    match jwFindMatch b used c (i - window) (min (i + window + 1) b.length) with
    | some j =>
      let r := jaroMatchGo b window rest (i + 1) (used.set j true)
      (r.1, c :: r.2)
    | none => jaroMatchGo b window rest (i + 1) used

/-- Modelled from the spec: the standard Jaro similarity ("`jaro_winkler(a,
b)` — standard definitions", §4.4); the `jaro_winkler` crate is an external
dependency whose source is not part of this repository. -/
def jaroSim (a b : List Char) : FRat :=
  if a = [] && b = [] then fN 1
  else if a = [] || b = [] then fN 0
  else
    let window := max a.length b.length / 2 - 1
    let r := jaroMatchGo b window a 0 (List.replicate b.length false)
    let m := r.2.length
    if m = 0 then fN 0
    else
      let bM := (b.zip r.1).filterMap (fun p => if p.2 then some p.1 else none)
      let k := (r.2.zip bM).countP (fun p => p.1 ≠ p.2)
      let t : FRat := fMk (k : ℤ) 2
      fDiv (fAdd (fAdd (fDiv (fN m) (fN a.length)) (fDiv (fN m) (fN b.length)))
        (fDiv (fSub (fN m) t) (fN m))) (fN 3)

/-- Length of the common prefix of two strings. -/
def commonPrefixLen : List Char → List Char → ℕ
  | x :: xs, y :: ys => if x = y then commonPrefixLen xs ys + 1 else 0
  | _, _ => 0

/-- Modelled from the spec: standard Jaro–Winkler (Jaro plus the common-prefix
boost, prefix length capped at 4, scaling factor 0.1). -/
def jaroWinklerQ (a b : List Char) : FRat :=
  let j := jaroSim a b
  fAdd j (fMul (fMul (fN (min (commonPrefixLen a b) 4)) (fMk 1 10)) (fSub (fN 1) j))

example : isSubseqIdx "hl".data "hhhl".data = some [0, 3] := by decide
example : isSubseqIdx "og4".data "openai/gpt-4o".data = some [0, 7, 11] := by decide
example : fEq (scoreMatchSpan [0, 3] 4) (fMk 44 10) := by decide
example : jaroWinklerQ "aa".data "aax".data = jaroWinklerQ "aa".data "aay".data := by decide
example : fEq (jaroSim "hello".data "hello".data) (fN 1) := by decide

/-- The negation of an `FRat` (used for the `f64::MIN` initialiser). -/
def fNeg (a : FRat) : FRat := ⟨-a.num, a.den⟩

/-- `AlgorithmType`: the four search algorithms of the ranker. -/
inductive AlgorithmType where
  | Prefix
  | FuzzySubseq
  | JaroWinkler
  | Substring
deriving DecidableEq

/-- `AlgorithmScore`: algorithm tag with raw and normalised scores. -/
structure AlgorithmScore where
  algorithm : AlgorithmType
  rawScore : FRat
  normalizedScore : FRat
deriving DecidableEq

/-- `AlternativeScore`: a further algorithm's normalised score for the same
string. -/
structure AlternativeScore where
  algorithm : AlgorithmType
  normalizedScore : FRat
deriving DecidableEq

/-- `ScoreCandidate`: a matching record with its primary algorithm score,
alternatives, and the final combined score (0 until filled in). -/
structure ScoreCandidate where
  stringRef : SRec
  algorithm : AlgorithmType
  rawScore : FRat
  normalizedScore : FRat
  finalScore : FRat
  alternativeScores : List AlternativeScore
deriving DecidableEq

/-- `validate_query`: non-empty, no control characters, single-byte queries
alphanumeric, at most 50 bytes, no U+FFFD. -/
def validateQuery (q : List Char) : Bool :=
  !(q.isEmpty) && !(q.any isControlChar) &&
    (if utf8Len q = 1 then q.all isAlnumChar else true) &&
    (utf8Len q ≤ 50) && !(q.any (fun c => c = Char.ofNat 0xFFFD))

/-- `QueryLengthCategory`. -/
inductive QueryLengthCategory where
  | VeryShort
  | Short
  | Medium
  | Long
deriving DecidableEq

/-- `QueryLengthCategory::from_query`: match on the byte length (`0` falls
into the wildcard arm, i.e. `Long`, exactly as in the source's `match`). -/
def queryCategory (q : List Char) : QueryLengthCategory :=
  let n := utf8Len q
  if 1 ≤ n ∧ n ≤ 2 then .VeryShort
  else if 3 ≤ n ∧ n ≤ 4 then .Short
  else if 5 ≤ n ∧ n ≤ 6 then .Medium
  else .Long

/-- `AlgorithmWeights` (fields suffixed with `W`). -/
structure AlgorithmWeights where
  prefixW : FRat
  fuzzySubseqW : FRat
  jaroWinklerW : FRat
  substringW : FRat
deriving DecidableEq

/-- The computation each arm of `AlgorithmWeights::for_category` performs on
its four original weights, with the source's hard-coded multipliers
`fuzzy_multiplier = 1.0` and `jaro_multiplier = 0.0`. -/
def weightsFrom (origP origF origJ origS : FRat) : AlgorithmWeights :=
  let fuzzyMultiplier := fN 1
  let jaroMultiplier := fN 0
  let fuzzy := fMul origF fuzzyMultiplier
  let jaro := fMul origJ jaroMultiplier
  let remaining := fSub (fN 1) (fAdd fuzzy jaro)
  let sumOthers := fAdd origP origS
  { prefixW := fMul origP (fDiv remaining sumOthers)
    fuzzySubseqW := fuzzy
    jaroWinklerW := jaro
    substringW := fMul origS (fDiv remaining sumOthers) }

/-- `AlgorithmWeights::for_category`. -/
def forCategory : QueryLengthCategory → AlgorithmWeights
  | .VeryShort => weightsFrom (fMk 45 100) (fMk 35 100) (fMk 15 100) (fMk 5 100)
  | .Short => weightsFrom (fMk 40 100) (fMk 30 100) (fMk 20 100) (fMk 10 100)
  | .Medium => weightsFrom (fMk 35 100) (fMk 25 100) (fMk 25 100) (fMk 15 100)
  | .Long => weightsFrom (fMk 25 100) (fMk 20 100) (fMk 35 100) (fMk 20 100)

/-- `get_dynamic_weights`. -/
def getDynamicWeights (q : List Char) : AlgorithmWeights :=
  forCategory (queryCategory q)

/-- `normalize_fuzzy_score`: ranges at most `f64::EPSILON` collapse to `0.5`;
otherwise invert and clamp to `[0, 1]`. -/
def normalizeFuzzyScore (raw mn mx : FRat) : FRat :=
  let range := fSub mx mn
  if decide (fLe range fEps) then fMk 1 2
  else fClamp (fSub (fN 1) (fDiv (fSub raw mn) range)) (fN 0) (fN 1)

/-- `calculate_prefix_score`: exact byte prefix scores 1.0, case-insensitive
prefix 0.9999, otherwise no score. -/
def calculatePrefixScore (r : SRec) (q : List Char) : Option AlgorithmScore :=
  if strStartsWith q r.str then some ⟨.Prefix, fN 1, fN 1⟩
  else if strStartsWith (lowerStr q) (lowerStr r.str) then
    some ⟨.Prefix, fMk 9999 10000, fMk 9999 10000⟩
  else none

/-- `score_fuzzy_subsequence`: fuzzy length filter, subsequence test, then
the character match-span score. -/
def scoreFuzzySubsequence (r : SRec) (q : List Char) : Option FRat :=
  if shouldSkipCandidateFuzzy (utf8Len r.str) (utf8Len q) then none
  else match isSubseqIdx q r.str with
    | some _ => some (scoreMatchSpanChars q r.str)
    | none => none

/-- Second pass of `fuzzy_subsequence_full_database`: normalise, filter by
threshold, stop once `cap = 2 * target_count` candidates are accepted. -/
def fuzzySecondGo (mn mx thr : FRat) (cap count : ℕ) :
    List (SRec × FRat) → List ScoreCandidate
  | [] => []
  | (r, raw) :: rest =>
    let norm := normalizeFuzzyScore raw mn mx
    if decide (fLe thr norm) then
      let c : ScoreCandidate := ⟨r, .FuzzySubseq, raw, norm, fN 0, []⟩
      if cap ≤ count + 1 then [c]
      else c :: fuzzySecondGo mn mx thr cap (count + 1) rest
    else fuzzySecondGo mn mx thr cap count rest

/-- `StringSpaceInner::fuzzy_subsequence_full_database`. -/
def fuzzyFullDatabase (store : List SRec) (q : List Char) (targetCount : ℕ)
    (thr : FRat) : List ScoreCandidate :=
  if q.isEmpty then []
  else
    let scores := store.filterMap (fun r =>
      (scoreFuzzySubsequence r q).map (fun sc => (r, sc)))
    let mn0 := scores.foldl (fun acc p => fMinF acc p.2) fMAX
    let mx0 := scores.foldl (fun acc p => fMaxF acc p.2) (fNeg fMAX)
    let rangePair :=
      if decide (fLt (fAbs (fSub mx0 mn0)) fEps) then
        if 1 < scores.length then (fN 0, fN 1)
        else (fSub mn0 (fN 1), fAdd mx0 (fN 1))
      else if decide (fLt (fSub mx0 mn0) (fMk 1 10)) then
        let mid := fDiv (fAdd mn0 mx0) (fN 2)
        (fSub mid (fMk 1 2), fAdd mid (fMk 1 2))
      else (mn0, mx0)
    fuzzySecondGo rangePair.1 rangePair.2 thr (targetCount * 2) 0 scores

/-- The scan of `jaro_winkler_full_database`: length filter, similarity
threshold, early stop at `cap = 2 * target_count` accepted candidates. -/
def jaroGo (q : List Char) (thr : FRat) (cap count : ℕ) :
    List SRec → List ScoreCandidate
  | [] => []
  | r :: rest =>
    if shouldSkipCandidate (utf8Len r.str) (utf8Len q) then
      jaroGo q thr cap count rest
    else
      let sim := jaroWinklerQ q r.str
      if decide (fLe thr sim) then
        let c : ScoreCandidate := ⟨r, .JaroWinkler, sim, sim, fN 0, []⟩
        if cap ≤ count + 1 then [c] else c :: jaroGo q thr cap (count + 1) rest
      else jaroGo q thr cap count rest

/-- `StringSpaceInner::jaro_winkler_full_database`: scan then stable sort by
similarity descending. -/
def jaroFullDatabase (store : List SRec) (q : List Char) (targetCount : ℕ)
    (thr : FRat) : List ScoreCandidate :=
  sSortBy (fun a b => decide (fLe b.normalizedScore a.normalizedScore))
    (jaroGo q thr (targetCount * 2) 0 store)

/-- `StringSpaceInner::scored_prefix_search`: prefix matches (frequency
sorted) turned into `Prefix`-tagged candidates. -/
def scoredPrefixSearch (store : List SRec) (q : List Char) :
    List ScoreCandidate :=
  (findByPrefixSorted store q).filterMap (fun r =>
    (calculatePrefixScore r q).map (fun sc =>
      (⟨r, .Prefix, sc.rawScore, sc.normalizedScore, fN 0, []⟩ : ScoreCandidate)))

/-- `add_unique_candidates`: append candidates whose string was not seen yet,
recording seen strings (model of the `HashSet` insert). -/
def addUniqueGo : List ScoreCandidate → List ScoreCandidate →
    List (List Char) → List ScoreCandidate × List (List Char)
  | [], acc, seen => (acc, seen)
  | c :: cs, acc, seen =>
    if c.stringRef.str ∈ seen then addUniqueGo cs acc seen
    else addUniqueGo cs (acc ++ [c]) (c.stringRef.str :: seen)

/-- `StringSpaceInner::progressive_algorithm_execution`: prefix phase capped
at `limit`, then fuzzy full-database with threshold 0, then Jaro–Winkler
full-database with the length-adaptive threshold, de-duplicating by string
throughout. -/
def progressiveExecution (store : List SRec) (q : List Char) (limit : ℕ) :
    List ScoreCandidate :=
  let s1 := addUniqueGo ((scoredPrefixSearch store q).take limit) [] []
  let s2 := addUniqueGo (fuzzyFullDatabase store q limit (fN 0)) s1.1 s1.2
  let jaroThr := if utf8Len q ≤ 2 then fMk 6 10 else fMk 7 10
  let s3 := addUniqueGo (jaroFullDatabase store q limit jaroThr) s2.1 s2.2
  s3.1

/-- `ScoreCandidate::add_alternative_score`. -/
def addAlt (c : ScoreCandidate) (alg : AlgorithmType) (ns : FRat) :
    ScoreCandidate :=
  { c with alternativeScores := c.alternativeScores ++ [⟨alg, ns⟩] }

/-- The update `merge_and_score_candidates` applies when a candidate's string
is already present: demote the weaker primary score to an alternative. -/
def mergeUpd (e c : ScoreCandidate) : ScoreCandidate :=
  if decide (fLt e.normalizedScore c.normalizedScore) then
    { addAlt e e.algorithm e.normalizedScore with
        algorithm := c.algorithm
        rawScore := c.rawScore
        normalizedScore := c.normalizedScore }
  else addAlt e c.algorithm c.normalizedScore

/-- Replace the (unique) entry keyed by `c`'s string with the merged entry. -/
def updateFirstByStr : List ScoreCandidate → ScoreCandidate →
    List ScoreCandidate
  | [], _ => []
  | e :: es, c =>
    if e.stringRef.str = c.stringRef.str then mergeUpd e c :: es
    else e :: updateFirstByStr es c

/-- One step of the merging fold (the `HashMap` keyed by the string, in
insertion order; `into_values`' iteration order is applied separately). -/
def mergeStep (acc : List ScoreCandidate) (c : ScoreCandidate) :
    List ScoreCandidate :=
  if acc.any (fun e => e.stringRef.str = c.stringRef.str) then
    updateFirstByStr acc c
  else acc ++ [c]

/-- The merging loop of `merge_and_score_candidates` (content of the
`HashMap`, as its insertion-ordered value list). -/
def mergeCandidates (cands : List ScoreCandidate) : List ScoreCandidate :=
  cands.foldl mergeStep []

/-- The per-algorithm maxima `calculate_final_score` extracts from a merged
candidate (primary score into its slot, then `max` over the alternatives):
`(prefix, fuzzy, jaro, substring)`. -/
def algoMaxima (c : ScoreCandidate) : FRat × FRat × FRat × FRat :=
  let p := if c.algorithm = .Prefix then c.normalizedScore else fN 0
  let f := if c.algorithm = .FuzzySubseq then c.normalizedScore else fN 0
  let j := if c.algorithm = .JaroWinkler then c.normalizedScore else fN 0
  let s := if c.algorithm = .Substring then c.normalizedScore else fN 0
  c.alternativeScores.foldl (fun acc alt =>
    match alt.algorithm with
    | .Prefix => (fMaxF acc.1 alt.normalizedScore, acc.2.1, acc.2.2.1, acc.2.2.2)
    | .FuzzySubseq => (acc.1, fMaxF acc.2.1 alt.normalizedScore, acc.2.2.1, acc.2.2.2)
    | .JaroWinkler => (acc.1, acc.2.1, fMaxF acc.2.2.1 alt.normalizedScore, acc.2.2.2)
    | .Substring => (acc.1, acc.2.1, acc.2.2.1, fMaxF acc.2.2.2 alt.normalizedScore))
    (p, f, j, s)

/-- `calculate_weighted_score`. -/
def calculateWeightedScore (p f j s : FRat) (q : List Char) : FRat :=
  let w := getDynamicWeights q
  fAdd (fAdd (fAdd (fMul w.prefixW p) (fMul w.fuzzySubseqW f))
    (fMul w.jaroWinklerW j)) (fMul w.substringW s)

/-- `apply_metadata_adjustments`; `lnQ` models `f64::ln`, `today` models
`days_since_epoch()`. -/
def applyMetadataAdjustments (lnQ : FRat → FRat) (today : ℕ) (weighted : FRat)
    (freq age candLen qLen maxLen : ℕ) : FRat :=
  let frequencyFactor := fAdd (fN 1) (fMul (lnQ (fAdd (fN freq) (fN 1))) (fMk 1 10))
  let ageFactor := fAdd (fN 1) (fMul (fDiv (fN age) (fN today)) (fMk 5 100))
  let lengthPenalty :=
    if qLen * 3 < candLen then
      fSub (fN 1) (fMul (fDiv (fN (candLen - qLen)) (fN maxLen)) (fMk 1 10))
    else fN 1
  fClamp (fMul (fMul (fMul weighted frequencyFactor) ageFactor) lengthPenalty)
    (fN 0) (fN 2)

/-- `get_max_string_length`: maximal byte length over the store (0 if empty). -/
def maxStrLen (store : List SRec) : ℕ :=
  store.foldl (fun m r => max m (utf8Len r.str)) 0

/-- `calculate_final_score`: weighted combination of the per-algorithm maxima,
then the metadata adjustments; fills the candidate's `final_score`. -/
def calcFinalScore (lnQ : FRat → FRat) (today : ℕ) (maxLen : ℕ)
    (q : List Char) (c : ScoreCandidate) : ScoreCandidate :=
  let m := algoMaxima c
  let weighted := calculateWeightedScore m.1 m.2.1 m.2.2.1 m.2.2.2 q
  let fs := applyMetadataAdjustments lnQ today weighted c.stringRef.frequency
    c.stringRef.ageDays (utf8Len c.stringRef.str) (utf8Len q) maxLen
  { c with finalScore := fs }

/-- Comparator of `rank_candidates_by_score` (final score descending). -/
def rankLe (a b : ScoreCandidate) : Bool := decide (fLe b.finalScore a.finalScore)

/-- The prefix-bias comparator of `best_completions`' final sort. -/
def prefixBiasCmp (q : List Char) (a b : ScoreCandidate) : Ordering :=
  let lowerQ := lowerStr q
  let aCi := strStartsWith lowerQ (lowerStr a.stringRef.str)
  let bCi := strStartsWith lowerQ (lowerStr b.stringRef.str)
  if aCi && !bCi then .lt
  else if !aCi && bCi then .gt
  else
    let aCs := strStartsWith q a.stringRef.str
    let bCs := strStartsWith q b.stringRef.str
    if aCs && !bCs then .lt
    else if !aCs && bCs then .gt
    else .eq

/-- The boolean preorder induced by the prefix-bias comparator. -/
def prefixBiasLe (q : List Char) (a b : ScoreCandidate) : Bool :=
  decide (prefixBiasCmp q a b ≠ .gt)

/-- `handle_single_character_query`: prefix search, frequency-descending
sort, truncation. -/
def handleSingleCharQuery (store : List SRec) (q : List Char) (limit : ℕ) :
    List SRec :=
  (sSortBy freqDescLe (findByPrefixNoSort store q)).take limit

/-- `StringSpaceInner::best_completions`.  `reorder` models the unspecified
iteration order of `HashMap::into_values` (the identity gives the map's
insertion order); `lnQ` models `f64::ln`; `today` models
`days_since_epoch()`. -/
def bestCompletions (reorder : List ScoreCandidate → List ScoreCandidate)
    (lnQ : FRat → FRat) (today : ℕ) (store : List SRec) (q : List Char)
    (limit : Option ℕ) : List SRec :=
  let lim := limit.getD 15
  if store.isEmpty then []
  else if !validateQuery q then []
  else if utf8Len q = 1 then handleSingleCharQuery store q lim
  else
    let pool := progressiveExecution store q lim
    if pool.isEmpty then []
    else
      let scored := (reorder (mergeCandidates pool)).map
        (calcFinalScore lnQ today (maxStrLen store) q)
      let ranked := sSortBy rankLe scored
      let final := sSortBy (prefixBiasLe q) ranked
      (final.take lim).map (fun c => c.stringRef)

/-- Worker for `strFind`: byte offset of the first occurrence. -/
def strFindGo (q : List Char) : List Char → ℕ → Option ℕ
  | [], pos => if strStartsWith q [] then some pos else none
  | c :: cs, pos =>
    if strStartsWith q (c :: cs) then some pos
    else strFindGo q cs (pos + c.utf8Size)

/-- Rust `str::find` for a literal pattern: byte position of the first
contiguous occurrence. -/
def strFind (q s : List Char) : Option ℕ := strFindGo q s 0

/-- `calculate_substring_score`: position of the first occurrence, normalised
so that earlier matches score higher (this function is reachable only from
the dead `collect_detailed_scores`; it is included because claim C4 speaks
about it). -/
def calculateSubstringScore (r : SRec) (q : List Char) : Option AlgorithmScore :=
  match strFind q r.str with
  | some pos =>
    let maxPos := utf8Len r.str - utf8Len q
    some ⟨.Substring, fN pos, fSub (fN 1) (fDiv (fN pos) (fN maxPos))⟩
  | none => none

/-- One line of `write_to_file`: `"{bytes} {frequency} {age_days}\n"`. -/
def recLine (r : SRec) : List Char :=
  r.str ++ ' ' :: (natDigits r.frequency ++ ' ' :: (natDigits r.ageDays ++ ['\n']))

/-- `StringSpaceInner::write_to_file`: the file contents as a character
stream. -/
def writeToFile (store : List SRec) : List Char := (store.map recLine).flatten

/-- The buffers `read_from_file`'s `read_until(b'\n')` loop processes: every
newline-terminated segment, plus the text after the last newline when it is
non-empty (at EOF `read_until` returns 0 and the loop stops). -/
def readChunks (content : List Char) : List (List Char) :=
  let parts := splitOnChar '\n' content
  match parts.getLast? with
  | some [] => parts.dropLast
  | _ => parts

/-- One line of `read_from_file`: split on whitespace, pad to three fields,
parse frequency (default 1) and age (default `today`), insert. -/
def parseLine (today : ℕ) (chunk : List Char) (store : List SRec) : List SRec :=
  let parts := splitWs chunk
  let p0 := parts.getD 0 []
  let p1 := parts.getD 1 []
  let p2 := parts.getD 2 []
  let freq := (parseUInt 65535 p1).getD 1
  let age := (parseUInt 4294967295 p2).getD today
  insertString today (trimChars p0) freq (some age) store

/-- `StringSpaceInner::read_from_file`: clear, then insert line by line. -/
def readFromFile (today : ℕ) (content : List Char) : List SRec :=
  (readChunks content).foldl (fun st ch => parseLine today ch st) []

/-- The word splitting of the dispatcher's `insert` arm: trim, newlines and
commas to spaces, collapse whitespace runs, split on single spaces. -/
def wordsOfParam (p : List Char) : List (List Char) :=
  splitOnChar ' '
    (collapseWs (((trimChars p).map (fun c => if c = '\n' then ' ' else c)).map
      (fun c => if c = ',' then ' ' else c)))

/-- The word-insertion loop of the `insert` arm: counts attempted and
successful inserts. -/
def insertWordsGo (today : ℕ) : List (List Char) → ℕ → ℕ → List SRec →
    ℕ × ℕ × List SRec
  | [], counter, num, store => (counter, num, store)
  | w :: ws, counter, num, store =>
    let r := insertChecked today w 1 store
    if r.1 then insertWordsGo today ws (counter + 1) (num + 1) r.2
    else insertWordsGo today ws counter (num + 1) store

/-- The `insert` arm of `StringSpaceProtocol::create_response`.  `writeOk`
models the outcome of the post-insert `write_to_file`; the source calls
`.unwrap()` on it, so a failing write with at least one inserted word
panics before any response is produced — modelled as `none`. -/
def createResponseInsert (today : ℕ) (store : List SRec)
    (params : List (List Char)) (writeOk : Bool) : Option (List Char) :=
  if params.length < 1 then
    some ("ERROR - invalid parameters (length = ".data ++
      natDigits params.length ++ ")".data)
  else
    let r := insertWordsGo today ((params.map wordsOfParam).flatten) 0 0 store
    if 0 < r.1 ∧ ¬ writeOk then none
    else some ("OK\nInserted ".data ++ natDigits r.1 ++ " of ".data ++
      natDigits r.2.1 ++ " words".data)

/-- The match-span score exactly as the specification's §4.5 words it
(definition following the SPEC, for comparison with the source's
`score_match_span` in claim C5): 0 for fewer than two matched characters,
else the average gap `gaps / (k - 1)` with `k = |q|`, divided by the
character length of `s`. -/
def specMatchSpanScore (q s : List Char) : FRat :=
  match isSubseqIdx q s with
  | some idx =>
    if idx.length < 2 then fN 0
    else
      fDiv (fDiv (fN (((idx.zip idx.tail).map (fun p => p.2 - p.1)).sum))
        (fN (q.length - 1))) (fN s.length)
  | none => fN 0

/-- The index invariant: entries strictly sorted by the byte sequences they
point at (which also forces all strings distinct). -/
def storeSorted (store : List SRec) : Prop :=
  List.Pairwise (fun a b => lexCmp a.str b.str = .lt) store

/-- Rank encoded by the prefix-bias comparator: case-insensitive prefix
status first, case-sensitive second (smaller sorts earlier). -/
def pKey (q : List Char) (c : ScoreCandidate) : ℕ :=
  (if strStartsWith (lowerStr q) (lowerStr c.stringRef.str) then 0 else 2) +
    (if strStartsWith q c.stringRef.str then 0 else 1)

/-- The substring component of the per-algorithm maxima entering the weighted
combination. -/
def substringMaxOf (c : ScoreCandidate) : FRat := (algoMaxima c).2.2.2

/-- The scored merged candidate list in the canonical (map-insertion) order;
`best_completions` ranks `reorder` applied to it. -/
def mergedScored (lnQ : FRat → FRat) (today : ℕ) (store : List SRec)
    (q : List Char) (lim : ℕ) : List ScoreCandidate :=
  (mergeCandidates (progressiveExecution store q lim)).map
    (calcFinalScore lnQ today (maxStrLen store) q)

/-- Value of a little-endian digit list. -/
def valLE : List ℕ → ℕ
  | [] => 0
  | d :: ds => d + 10 * valLE ds

/-- A concrete stand-in for `f64::ln` used by witnesses (the constant-zero
function). -/
def lnZero : FRat → FRat := fun _ => fN 0

/-- No `Substring` tag anywhere in a candidate's scores. -/
def noSubCand (c : ScoreCandidate) : Prop :=
  c.algorithm ≠ .Substring ∧ ∀ a ∈ c.alternativeScores, a.algorithm ≠ .Substring

/-- Concrete store for the determinism counterexample: two records that are
symmetric for the query `"aa"`. -/
def stTie : List SRec := [⟨"aax".data, 1, 0⟩, ⟨"aay".data, 1, 0⟩]

/-- Concrete store with distinct final scores for the query `"ab"` (the ages
differ, so the age factors differ). -/
def stDistinct : List SRec := [⟨"abc".data, 1, 100⟩, ⟨"abd".data, 1, 200⟩]

/-- Concrete store for the fuzzy-ordering counterexample. -/
def stSpan : List SRec :=
  [⟨"hhhl".data, 1, 0⟩, ⟨"hl".data ++ List.replicate 28 'a', 1, 0⟩]

/-- Concrete store for the substring-score counterexample: `"ay"` occurs at
byte position 1 of `"xayz"`. -/
def stSub : List SRec := [⟨"xayz".data, 1, 0⟩]

/-- Concrete store whose single record contains a space, for the round-trip
counterexample. -/
def stSpace : List SRec := [⟨"ab ".data, 5, 7⟩]

/-- Concrete well-formed store for the round-trip witness. -/
def stRT : List SRec := [⟨"hello".data, 1, 20000⟩, ⟨"world".data, 2, 20000⟩]

/-- The text of a stored line without its newline terminator. -/
def lineBody (r : SRec) : List Char :=
  r.str ++ ' ' :: (natDigits r.frequency ++ ' ' :: natDigits r.ageDays)

/-! Order-theoretic facts about `FRat`. -/

theorem fLe_total (a b : FRat) : fLe a b ∨ fLe b a := Int.le_total _ _

theorem fLe_antisymm {a b : FRat} (h1 : fLe a b) (h2 : fLe b a) : fEq a b :=
  le_antisymm h1 h2

theorem fMk_den_pos (n : ℤ) (d : ℕ) : 0 < (fMk n d).den := by
  unfold fMk; dsimp only; split <;> omega

theorem fAdd_den_pos (a b : FRat) : 0 < (fAdd a b).den := fMk_den_pos _ _

theorem fSub_den_pos (a b : FRat) : 0 < (fSub a b).den := fMk_den_pos _ _

theorem fMul_den_pos (a b : FRat) : 0 < (fMul a b).den := fMk_den_pos _ _

theorem fDiv_den_pos (a b : FRat) : 0 < (fDiv a b).den := by
  unfold fDiv
  split
  · exact fMk_den_pos _ _
  · split <;> exact fMk_den_pos _ _

theorem fN_den_pos (n : ℕ) : 0 < (fN n).den := Nat.one_pos

theorem fClamp_den_pos {x lo hi : FRat} (hx : 0 < x.den) (hlo : 0 < lo.den)
    (hhi : 0 < hi.den) : 0 < (fClamp x lo hi).den := by
  unfold fClamp; split
  · exact hlo
  · split
    · exact hhi
    · exact hx

theorem fLe_trans {a b c : FRat} (hb : 0 < b.den) (h1 : fLe a b)
    (h2 : fLe b c) : fLe a c := by
  unfold fLe at *
  have hbz : (0 : ℤ) < (b.den : ℤ) := by exact_mod_cast hb
  have h1' := mul_le_mul_of_nonneg_right h1 (Int.natCast_nonneg c.den)
  have h2' := mul_le_mul_of_nonneg_right h2 (Int.natCast_nonneg a.den)
  have key : a.num * (c.den : ℤ) * (b.den : ℤ) ≤ c.num * (a.den : ℤ) * (b.den : ℤ) := by
    nlinarith [h1', h2']
  exact le_of_mul_le_mul_right key hbz

/-! The stable insertion sort: permutation, membership, sortedness,
uniqueness among sorted permutations. -/

theorem sInsert_perm (le : α → α → Bool) (x : α) :
    ∀ l : List α, (sInsert le x l).Perm (x :: l)
  | [] => .refl _
  | y :: ys => by
    unfold sInsert; split
    · exact .refl _
    · exact ((sInsert_perm le x ys).cons y).trans (List.Perm.swap x y ys)

theorem sSortBy_perm (le : α → α → Bool) : ∀ l : List α, (sSortBy le l).Perm l
  | [] => .refl _
  | x :: xs => (sInsert_perm le x (sSortBy le xs)).trans ((sSortBy_perm le xs).cons x)

theorem mem_sInsert {le : α → α → Bool} {x z : α} {l : List α} :
    z ∈ sInsert le x l ↔ z = x ∨ z ∈ l := by
  simpa using (sInsert_perm le x l).mem_iff

theorem sInsert_pairwise (le : α → α → Bool) (x : α) :
    ∀ l : List α, List.Pairwise (fun a b => le a b = true) l →
    (∀ b ∈ l, le x b = true ∨ le b x = true) →
    (∀ b c, b ∈ l → c ∈ l → le x b = true → le b c = true → le x c = true) →
    List.Pairwise (fun a b => le a b = true) (sInsert le x l)
  | [], _, _, _ => by simp [sInsert]
  | y :: ys, hp, htot, htrans => by
    unfold sInsert
    rcases List.pairwise_cons.mp hp with ⟨hy, hys⟩
    split
    case isTrue hxy =>
      refine List.Pairwise.cons ?_ hp
      intro z hz
      rcases List.mem_cons.mp hz with rfl | hz'
      · exact hxy
      · exact htrans y z (by simp) (by simp [hz']) hxy (hy z hz')
    case isFalse hxy =>
      refine List.Pairwise.cons ?_
        (sInsert_pairwise le x ys hys
          (fun b hb => htot b (by simp [hb]))
          (fun b c hb hc => htrans b c (by simp [hb]) (by simp [hc])))
      intro z hz
      rcases mem_sInsert.mp hz with rfl | hz'
      · exact (htot y (by simp)).resolve_left hxy
      · exact hy z hz'

theorem sSortBy_pairwise (le : α → α → Bool) :
    ∀ l : List α,
    (∀ a b, a ∈ l → b ∈ l → le a b = true ∨ le b a = true) →
    (∀ a b c, a ∈ l → b ∈ l → c ∈ l → le a b = true → le b c = true →
      le a c = true) →
    List.Pairwise (fun a b => le a b = true) (sSortBy le l)
  | [], _, _ => by simp [sSortBy]
  | x :: xs, htot, htrans => by
    unfold sSortBy
    have hmem : ∀ z ∈ sSortBy le xs, z ∈ xs :=
      fun z hz => (sSortBy_perm le xs).mem_iff.mp hz
    refine sInsert_pairwise le x _
      (sSortBy_pairwise le xs
        (fun a b ha hb => htot a b (by simp [ha]) (by simp [hb]))
        (fun a b c ha hb hc => htrans a b c (by simp [ha]) (by simp [hb]) (by simp [hc])))
      ?_ ?_
    · intro b hb
      exact htot x b (by simp) (by simp [hmem b hb])
    · intro b c hb hc hxb hbc
      exact htrans x b c (by simp) (by simp [hmem b hb]) (by simp [hmem c hc]) hxb hbc

theorem sorted_perm_unique (le : α → α → Bool) :
    ∀ (l₁ l₂ : List α), l₁.Perm l₂ →
    List.Pairwise (fun a b => le a b = true) l₁ →
    List.Pairwise (fun a b => le a b = true) l₂ →
    (∀ a b, a ∈ l₁ → b ∈ l₁ → le a b = true → le b a = true → a = b) →
    l₁ = l₂
  | [], l₂, hperm, _, _, _ => hperm.nil_eq
  | a :: t₁, [], hperm, _, _, _ => absurd hperm.eq_nil (by simp)
  | a :: t₁, b :: t₂, hperm, hp₁, hp₂, hanti => by
    rcases List.pairwise_cons.mp hp₁ with ⟨ha1, hp₁t⟩
    rcases List.pairwise_cons.mp hp₂ with ⟨hb2, hp₂t⟩
    by_cases hab : a = b
    · subst hab
      have ht := hperm.cons_inv
      have := sorted_perm_unique le t₁ t₂ ht hp₁t hp₂t
        (fun x y hx hy => hanti x y (by simp [hx]) (by simp [hy]))
      rw [this]
    · have hb1 : b ∈ a :: t₁ := hperm.mem_iff.mpr (by simp)
      have ha2 : a ∈ b :: t₂ := hperm.mem_iff.mp (by simp)
      have hab1 : le a b = true := by
        rcases List.mem_cons.mp hb1 with h | h
        · exact absurd h.symm hab
        · exact ha1 b h
      have hba2 : le b a = true := by
        rcases List.mem_cons.mp ha2 with h | h
        · exact absurd h hab
        · exact hb2 a h
      exact absurd (hanti a b (by simp) hb1 hab1 hba2) hab

/-! Facts about the character and lexicographic comparators. -/

theorem chCmp_self (c : Char) : chCmp c c = .eq := by simp [chCmp]

theorem chCmp_eq_of {c d : Char} (h : chCmp c d = .eq) : c = d := by
  unfold chCmp at h
  split at h
  · exact absurd h (by simp)
  · split at h
    · exact absurd h (by simp)
    · have h3 : c.toNat = d.toNat := by omega
      exact Char.ext (UInt32.ext (by simpa [Char.toNat] using h3))

theorem chCmp_lt_trans {a b c : Char} (h1 : chCmp a b = .lt)
    (h2 : chCmp b c = .lt) : chCmp a c = .lt := by
  unfold chCmp at *
  split_ifs at * <;> simp_all <;> omega

theorem chCmp_gt_iff {c d : Char} : chCmp c d = .gt ↔ chCmp d c = .lt := by
  unfold chCmp
  split_ifs <;> simp_all <;> omega

theorem lexCmp_self : ∀ a : List Char, lexCmp a a = .eq
  | [] => rfl
  | x :: xs => by
    have := lexCmp_self xs
    simp [lexCmp, chCmp_self, this]

theorem lexCmp_eq_of : ∀ {a b : List Char}, lexCmp a b = .eq → a = b
  | [], [], _ => rfl
  | [], _ :: _, h => by simp [lexCmp] at h
  | _ :: _, [], h => by simp [lexCmp] at h
  | x :: xs, y :: ys, h => by
    rw [lexCmp] at h
    rcases hc : chCmp x y with hlt | heq | hgt <;> rw [hc] at h
    · exact absurd h (by simp)
    · rw [chCmp_eq_of hc, lexCmp_eq_of h]
    · exact absurd h (by simp)

theorem lexCmp_lt_trans : ∀ {a b c : List Char}, lexCmp a b = .lt →
    lexCmp b c = .lt → lexCmp a c = .lt
  | [], [], _, h1, _ => by simp [lexCmp] at h1
  | [], _ :: _, [], _, h2 => by simp [lexCmp] at h2
  | [], _ :: _, _ :: _, _, _ => by simp [lexCmp]
  | _ :: _, [], _, h1, _ => by simp [lexCmp] at h1
  | _ :: _, _ :: _, [], _, h2 => by simp [lexCmp] at h2
  | x :: xs, y :: ys, z :: zs, h1, h2 => by
    have expand : ∀ (c d : Char) (cs ds : List Char),
        lexCmp (c :: cs) (d :: ds) =
          match chCmp c d with
          | .eq => lexCmp cs ds
          | o => o := fun _ _ _ _ => rfl
    rcases hxy : chCmp x y with _ | _ | _
    · rcases hyz : chCmp y z with _ | _ | _
      · rw [expand, chCmp_lt_trans hxy hyz]
      · have hz : chCmp x z = .lt := chCmp_eq_of hyz ▸ hxy
        rw [expand, hz]
      · rw [expand, hyz] at h2
        exact absurd h2 (by simp)
    · obtain rfl : x = y := chCmp_eq_of hxy
      rw [expand, hxy] at h1
      rcases hyz : chCmp x z with _ | _ | _
      · rw [expand, hyz]
      · rw [expand, hyz] at h2
        rw [expand, hyz]
        exact lexCmp_lt_trans h1 h2
      · rw [expand, hyz] at h2
        exact absurd h2 (by simp)
    · rw [expand, hxy] at h1
      exact absurd h1 (by simp)

theorem lexCmp_gt_iff : ∀ {a b : List Char}, lexCmp a b = .gt ↔ lexCmp b a = .lt
  | [], [] => by simp [lexCmp]
  | [], _ :: _ => by simp [lexCmp]
  | _ :: _, [] => by simp [lexCmp]
  | x :: xs, y :: ys => by
    rw [lexCmp, lexCmp]
    rcases hxy : chCmp x y with h | h | h
    · rw [show chCmp y x = .gt from by
        rw [chCmp_gt_iff]; exact hxy]
      simp
    · rw [chCmp_eq_of hxy, chCmp_self]
      exact lexCmp_gt_iff
    · rw [chCmp_gt_iff.mp hxy]
      simp

/-- An `Ordering` that is neither `lt` nor `eq` is `gt`. -/
theorem ordering_gt_of {o : Ordering} (h1 : o ≠ .lt) (h2 : o ≠ .eq) : o = .gt := by
  cases o <;> simp_all

/-! `strStartsWith` and prefixes. -/

theorem strStartsWith_iff : ∀ {p s : List Char}, strStartsWith p s = true ↔ p <+: s
  | [], s => by simp [strStartsWith]
  | _ :: _, [] => by simp [strStartsWith]
  | p :: ps, c :: cs => by
    rw [strStartsWith]
    simp only [Bool.and_eq_true, decide_eq_true_eq, List.cons_prefix_cons]
    exact and_congr Iff.rfl strStartsWith_iff

theorem strStartsWith_lower {p s : List Char} (h : strStartsWith p s = true) :
    strStartsWith (lowerStr p) (lowerStr s) = true :=
  strStartsWith_iff.mpr ((strStartsWith_iff.mp h).map lowerChar)

/-! Binary search: bounds of the reported index. -/

theorem binSearchGo_all_lt (store : List SRec) (f : List Char → Ordering) :
    ∀ (fuel l r : ℕ), l ≤ r → r - l ≤ fuel →
    (∀ j, l ≤ j → j < r → f (store.getD j default).str = .lt) →
    binSearchGo store f fuel l r = r := by
  intro fuel
  induction fuel with
  | zero =>
    intro l r hlr hfuel _
    have : l = r := by omega
    simp [binSearchGo, this]
  | succ n ih =>
    intro l r hlr hfuel hall
    by_cases h : l < r
    · have hmid1 : l ≤ l + (r - l) / 2 := by omega
      have hmid2 : l + (r - l) / 2 < r := by omega
      have hrw := hall _ hmid1 hmid2
      simp only [binSearchGo, if_pos h, hrw]
      exact ih _ r (by omega) (by omega) (fun j hj1 hj2 => hall j (by omega) hj2)
    · simp only [binSearchGo, if_neg h]
      omega

theorem binSearchGo_bounds (store : List SRec) (t : List Char)
    (hsort : ∀ j k (_ : j < store.length) (_ : k < store.length), j < k →
      lexCmp (store.getD j default).str (store.getD k default).str = .lt) :
    ∀ (fuel l r : ℕ), l ≤ r → r ≤ store.length → r - l ≤ fuel →
    (∀ j, j < l → j < store.length →
      lexCmp (store.getD j default).str t = .lt) →
    (∀ j, r ≤ j → j < store.length →
      lexCmp (store.getD j default).str t ≠ .lt) →
    (∀ j, j < binSearchGo store (fun e => lexCmp e t) fuel l r →
        j < store.length → lexCmp (store.getD j default).str t = .lt) ∧
    (∀ j, binSearchGo store (fun e => lexCmp e t) fuel l r ≤ j →
        j < store.length → lexCmp (store.getD j default).str t ≠ .lt) := by
  intro fuel
  induction fuel with
  | zero =>
    intro l r hlr hrlen hfuel hlo hhi
    have : l = r := by omega
    subst this
    exact ⟨hlo, hhi⟩
  | succ n ih =>
    intro l r hlr hrlen hfuel hlo hhi
    by_cases h : l < r
    · have hmid1 : l ≤ l + (r - l) / 2 := by omega
      have hmid2 : l + (r - l) / 2 < r := by omega
      have hmidlen : l + (r - l) / 2 < store.length := by omega
      rcases hm : lexCmp (store.getD (l + (r - l) / 2) default).str t with _ | _ | _
      · -- comparator answered Less: search the right half
        have step : binSearchGo store (fun e => lexCmp e t) (n + 1) l r =
            binSearchGo store (fun e => lexCmp e t) n (l + (r - l) / 2 + 1) r := by
          simp only [binSearchGo, if_pos h, hm]
        rw [step]
        refine ih (l + (r - l) / 2 + 1) r (by omega) hrlen (by omega) ?_ hhi
        intro j hj hjlen
        rcases Nat.lt_or_ge j l with hjl | hjl
        · exact hlo j hjl hjlen
        · rcases Nat.lt_or_ge j (l + (r - l) / 2) with hjm | hjm
          · exact lexCmp_lt_trans (hsort j _ hjlen hmidlen hjm) hm
          · have : j = l + (r - l) / 2 := by omega
            rw [this]
            exact hm
      · -- comparator answered Equal: search the left half
        have step : binSearchGo store (fun e => lexCmp e t) (n + 1) l r =
            binSearchGo store (fun e => lexCmp e t) n l (l + (r - l) / 2) := by
          simp only [binSearchGo, if_pos h, hm]
        rw [step]
        refine ih l (l + (r - l) / 2) (by omega) (by omega) (by omega) hlo ?_
        intro j hj hjlen hcon
        rcases Nat.lt_or_ge j r with hjr | hjr
        · rcases Nat.lt_or_ge (l + (r - l) / 2) j with hmj | hmj
          · have := lexCmp_lt_trans (hsort _ j hmidlen hjlen hmj) hcon
            rw [hm] at this
            exact Ordering.noConfusion this
          · have hje : j = l + (r - l) / 2 := by omega
            rw [hje, hm] at hcon
            exact Ordering.noConfusion hcon
        · exact hhi j hjr hjlen hcon
      · -- comparator answered Greater: search the left half
        have step : binSearchGo store (fun e => lexCmp e t) (n + 1) l r =
            binSearchGo store (fun e => lexCmp e t) n l (l + (r - l) / 2) := by
          simp only [binSearchGo, if_pos h, hm]
        rw [step]
        refine ih l (l + (r - l) / 2) (by omega) (by omega) (by omega) hlo ?_
        intro j hj hjlen hcon
        rcases Nat.lt_or_ge j r with hjr | hjr
        · rcases Nat.lt_or_ge (l + (r - l) / 2) j with hmj | hmj
          · have := lexCmp_lt_trans (hsort _ j hmidlen hjlen hmj) hcon
            rw [hm] at this
            exact Ordering.noConfusion this
          · have hje : j = l + (r - l) / 2 := by omega
            rw [hje, hm] at hcon
            exact Ordering.noConfusion hcon
        · exact hhi j hjr hjlen hcon
    · have step : binSearchGo store (fun e => lexCmp e t) (n + 1) l r = l := by
        simp [binSearchGo, if_neg h]
      rw [step]
      have : l = r := by omega
      subst this
      exact ⟨hlo, hhi⟩

/-! Sortedness of the index through `insert_string`. -/

theorem storeSorted_getD {store : List SRec} (h : storeSorted store) :
    ∀ j k, j < store.length → k < store.length → j < k →
    lexCmp (store.getD j default).str (store.getD k default).str = .lt := by
  intro j k hj hk hjk
  rw [List.getD_eq_getElem store default hj, List.getD_eq_getElem store default hk]
  exact List.pairwise_iff_getElem.mp h j k hj hk hjk

theorem list_set_self {γ : Type _} : ∀ (l : List γ) (i : ℕ) (h : i < l.length),
    l.set i l[i] = l
  | [], i, h => by simp at h
  | x :: xs, 0, _ => rfl
  | x :: xs, i + 1, h => by
    simp only [List.getElem_cons_succ, List.set_cons_succ, List.cons.injEq,
      true_and]
    exact list_set_self xs i (by simpa using h)

theorem insertString_sorted (today : ℕ) (s : List Char) (freq : ℕ)
    (age : Option ℕ) (store : List SRec) (h : storeSorted store) :
    storeSorted (insertString today s freq age store) := by
  have hbs : (∀ j, j < binSearch store (fun e => lexCmp e s) →
      j < store.length → lexCmp (store.getD j default).str s = .lt) ∧
      (∀ j, binSearch store (fun e => lexCmp e s) ≤ j → j < store.length →
      lexCmp (store.getD j default).str s ≠ .lt) :=
    binSearchGo_bounds store s (storeSorted_getD h) store.length 0
      store.length (by omega) (le_refl _) (by omega)
      (fun j hj _ => absurd hj (Nat.not_lt_zero j))
      (fun j hj hjlen => absurd (lt_of_le_of_lt hj hjlen) (lt_irrefl _))
  obtain ⟨hlo, hhi⟩ := hbs
  unfold insertString
  dsimp only
  set i := binSearch store (fun e => lexCmp e s) with hidef
  split
  case isTrue hcase =>
    obtain ⟨hilen, hstr⟩ := hcase
    have hmap : (store.set i
        { str := s,
          frequency := ((store.getD i default).frequency + freq) % 65536,
          ageDays := today }).map (fun r => r.str) = store.map (fun r => r.str) := by
      rw [List.map_set]
      have hilen2 : i < (store.map (fun r => r.str)).length := by simpa using hilen
      have : s = (store.map (fun r => r.str))[i] := by
        rw [List.getElem_map]
        rw [List.getD_eq_getElem store default hilen] at hstr
        exact hstr.symm
      rw [this]
      exact list_set_self _ i hilen2
    unfold storeSorted
    refine (@List.pairwise_map SRec (List Char) (fun r => r.str)
      (fun a b => lexCmp a b = .lt) _).mp ?_
    rw [hmap]
    exact List.pairwise_map.mpr h
  case isFalse hcase =>
    have hins : ∀ a ∈ store.take i, lexCmp a.str s = .lt := by
      intro a ha
      obtain ⟨j, hj, hja⟩ := List.mem_take_iff_getElem.mp ha
      have hj1 : j < i := lt_of_lt_of_le hj (min_le_left _ _)
      have hj2 : j < store.length := lt_of_lt_of_le hj (min_le_right _ _)
      have := hlo j hj1 hj2
      rw [List.getD_eq_getElem store default hj2, hja] at this
      exact this
    have hge : ∀ k, i ≤ k → k < store.length →
        lexCmp s (store.getD k default).str = .lt := by
      intro k hk hklen
      have h1 : lexCmp (store.getD k default).str s ≠ .lt := hhi k hk hklen
      have h2 : lexCmp (store.getD k default).str s ≠ .eq := by
        intro he
        have heq : (store.getD k default).str = s := lexCmp_eq_of he
        rcases Nat.eq_or_lt_of_le hk with rfl | hik
        · exact hcase ⟨hklen, heq⟩
        · have hlt := storeSorted_getD h i k (by omega) hklen hik
          rw [heq] at hlt
          exact hhi i (le_refl _) (by omega) hlt
      exact lexCmp_gt_iff.mp (ordering_gt_of h1 h2)
    have hdrop : ∀ b ∈ store.drop i, lexCmp s b.str = .lt := by
      intro b hb
      obtain ⟨j, hj, hjb⟩ := List.mem_drop_iff_getElem.mp hb
      have := hge (i + j) (by omega) (by omega)
      rw [List.getD_eq_getElem store default (by omega), hjb] at this
      exact this
    have hsplit := List.pairwise_append.mp
      (by rw [List.take_append_drop i store]; exact h)
    refine List.pairwise_append.mpr ⟨hsplit.1, ?_, ?_⟩
    · refine List.Pairwise.cons ?_ hsplit.2.1
      intro b hb
      exact hdrop b hb
    · intro a ha b hb
      rcases List.mem_cons.mp hb with rfl | hb'
      · exact hins a ha
      · exact hsplit.2.2 a ha b hb'

theorem storeSorted_nodup {store : List SRec} (h : storeSorted store) :
    (store.map (fun r => r.str)).Nodup := by
  refine List.pairwise_map.mpr ?_
  refine h.imp ?_
  intro a b hab hEq
  rw [hEq, lexCmp_self] at hab
  exact Ordering.noConfusion hab

theorem foldl_insert_sorted (today : ℕ) (ops : List (List Char × ℕ)) :
    ∀ store : List SRec, storeSorted store →
    storeSorted (ops.foldl (fun st op => insertString today op.1 op.2 none st) store) := by
  induction ops with
  | nil => intro store h; exact h
  | cons op rest ih =>
    intro store h
    exact ih _ (insertString_sorted today op.1 op.2 none store h)

/-! Decimal rendering and parsing round-trip. -/

theorem digitsLEGo_val : ∀ (fuel n : ℕ), n ≤ fuel → valLE (digitsLEGo fuel n) = n
  | 0, n, h => by
    have : n = 0 := by omega
    subst this
    rfl
  | fuel + 1, n, h => by
    rw [digitsLEGo]
    split
    case isTrue h0 => simp [valLE, h0]
    case isFalse h0 =>
      rw [valLE, digitsLEGo_val fuel (n / 10) (by omega)]
      omega

theorem digitsLEGo_lt10 : ∀ (fuel n : ℕ) (d : ℕ), d ∈ digitsLEGo fuel n → d < 10
  | 0, _, _, h => by simp [digitsLEGo] at h
  | fuel + 1, n, d, h => by
    rw [digitsLEGo] at h
    split at h
    · simp at h
    · rcases List.mem_cons.mp h with rfl | h'
      · omega
      · exact digitsLEGo_lt10 fuel (n / 10) d h'

theorem digitVal_digitCh {d : ℕ} (h : d < 10) : digitVal (digitCh d) = d := by
  interval_cases d <;> decide

theorem digitCh_toNat {d : ℕ} (h : d < 10) : (digitCh d).toNat = 48 + d := by
  interval_cases d <;> decide

theorem natDigits_digits (n : ℕ) :
    ∀ c ∈ natDigits n, 48 ≤ c.toNat ∧ c.toNat ≤ 57 := by
  intro c hc
  unfold natDigits at hc
  split at hc
  · rcases List.mem_singleton.mp hc with rfl
    decide
  · obtain ⟨d, hd, rfl⟩ := List.mem_map.mp hc
    have h10 := digitsLEGo_lt10 _ _ d (List.mem_reverse.mp hd)
    rw [digitCh_toNat h10]
    omega

theorem natDigits_ne_nil (n : ℕ) : natDigits n ≠ [] := by
  unfold natDigits
  split
  · simp
  case isFalse h0 =>
    rw [digitsLE, digitsLEGo]
    rw [if_neg h0]
    simp

theorem foldl_digits : ∀ (L : List ℕ) (acc : ℕ), (∀ d ∈ L, d < 10) →
    List.foldl (fun a c => a * 10 + digitVal c) acc ((L.reverse).map digitCh) =
      acc * 10 ^ L.length + valLE L
  | [], acc, _ => by simp [valLE]
  | d :: L, acc, h => by
    rw [List.reverse_cons, List.map_append, List.foldl_append,
      foldl_digits L acc (fun x hx => h x (by simp [hx]))]
    simp only [List.map_cons, List.map_nil, List.foldl_cons, List.foldl_nil,
      digitVal_digitCh (h d (by simp)), valLE, List.length_cons]
    ring

theorem natDigits_val (n : ℕ) :
    (natDigits n).foldl (fun a c => a * 10 + digitVal c) 0 = n := by
  unfold natDigits
  split
  case isTrue h0 =>
    subst h0
    decide
  case isFalse h0 =>
    rw [foldl_digits (digitsLE n) 0 (digitsLEGo_lt10 _ _)]
    rw [show digitsLE n = digitsLEGo (n + 1) n from rfl,
      digitsLEGo_val (n + 1) n (by omega)]
    omega

theorem parse_natDigits {maxv n : ℕ} (h : n ≤ maxv) :
    parseUInt maxv (natDigits n) = some n := by
  have hd := natDigits_digits n
  have hne := natDigits_ne_nil n
  have hplus : ¬((natDigits n).head? = some '+') := by
    cases hc : natDigits n with
    | nil => simp
    | cons c cs =>
      have hcd := hd c (by rw [hc]; simp)
      simp only [List.head?_cons, Option.some.injEq]
      intro h'
      subst h'
      revert hcd
      decide
  have hall : (natDigits n).all (fun c => 48 ≤ c.toNat && c.toNat ≤ 57) = true := by
    rw [List.all_eq_true]
    intro c hc
    have := hd c hc
    simp [this.1, this.2]
  unfold parseUInt
  dsimp only
  rw [if_neg hplus, if_neg hne, if_pos hall, natDigits_val n, if_pos h]

/-! Whitespace splitting of the written lines. -/

theorem splitWsGo_push : ∀ (w cur rest : List Char),
    (∀ c ∈ w, isWsChar c = false) →
    splitWsGo cur (w ++ rest) = splitWsGo (w.reverse ++ cur) rest
  | [], cur, rest, _ => by simp
  | c :: w, cur, rest, h => by
    have hc : isWsChar c = false := h c (by simp)
    rw [List.cons_append, splitWsGo, hc]
    simp only [Bool.false_eq_true, if_false]
    rw [splitWsGo_push w (c :: cur) rest (fun x hx => h x (by simp [hx]))]
    simp

theorem splitWs_word_sep (w rest : List Char)
    (hne : w ≠ []) (hw : ∀ c ∈ w, isWsChar c = false) (hsp : isWsChar ' ' = true) :
    splitWsGo [] (w ++ ' ' :: rest) = w :: splitWsGo [] rest := by
  rw [splitWsGo_push w [] (' ' :: rest) hw]
  rw [List.append_nil, splitWsGo, hsp]
  simp only [if_true]
  rw [if_neg (by simpa using hne)]
  simp

theorem splitWs_word_end (w : List Char) (hne : w ≠ [])
    (hw : ∀ c ∈ w, isWsChar c = false) : splitWsGo [] w = [w] := by
  have := splitWsGo_push w [] [] hw
  rw [List.append_nil] at this
  rw [this, List.append_nil, splitWsGo]
  rw [if_neg (by simpa using hne)]
  simp

theorem splitWs_line (str d1 d2 : List Char) (hne : str ≠ [])
    (hstr : ∀ c ∈ str, isWsChar c = false)
    (hd1ne : d1 ≠ []) (hd1 : ∀ c ∈ d1, isWsChar c = false)
    (hd2ne : d2 ≠ []) (hd2 : ∀ c ∈ d2, isWsChar c = false) :
    splitWs (str ++ ' ' :: (d1 ++ ' ' :: d2)) = [str, d1, d2] := by
  unfold splitWs
  rw [splitWs_word_sep str _ hne hstr (by decide)]
  rw [splitWs_word_sep d1 _ hd1ne hd1 (by decide)]
  rw [splitWs_word_end d2 hd2ne hd2]

theorem dropWhile_no_ws {s : List Char} (h : ∀ c ∈ s, isWsChar c = false) :
    s.dropWhile isWsChar = s := by
  cases s with
  | nil => rfl
  | cons c cs =>
    rw [List.dropWhile_cons, h c (by simp)]
    simp

theorem trimChars_no_ws {s : List Char} (h : ∀ c ∈ s, isWsChar c = false) :
    trimChars s = s := by
  unfold trimChars
  rw [dropWhile_no_ws h,
    dropWhile_no_ws (fun c hc => h c (List.mem_reverse.mp hc)), List.reverse_reverse]

theorem natDigits_no_ws (n : ℕ) : ∀ c ∈ natDigits n, isWsChar c = false := by
  intro c hc
  have h1 := (natDigits_digits n c hc).1
  have h2 := (natDigits_digits n c hc).2
  simp only [isWsChar, Bool.or_eq_false_iff, Bool.and_eq_false_iff,
    decide_eq_false_iff_not, not_le]
  omega

theorem natDigits_no_nl (n : ℕ) : ∀ c ∈ natDigits n, c ≠ '\n' := by
  intro c hc heq
  have := natDigits_digits n c hc
  subst heq
  revert this
  decide

/-! The on-disk file produced by `write_to_file`, read back line by line. -/

theorem splitOnChar_no_sep (sep : Char) : ∀ (w rest : List Char),
    (∀ c ∈ w, c ≠ sep) →
    splitOnChar sep (w ++ sep :: rest) = w :: splitOnChar sep rest
  | [], rest, _ => by rw [List.nil_append, splitOnChar, if_pos rfl]
  | c :: w, rest, h => by
    rw [List.cons_append, splitOnChar, if_neg (h c (by simp)),
      splitOnChar_no_sep sep w rest (fun x hx => h x (by simp [hx]))]

theorem recLine_eq (r : SRec) : recLine r = lineBody r ++ ['\n'] := by
  simp [recLine, lineBody]

theorem lineBody_no_nl {r : SRec} (hws : ∀ c ∈ r.str, isWsChar c = false) :
    ∀ c ∈ lineBody r, c ≠ '\n' := by
  intro c hc
  unfold lineBody at hc
  rcases List.mem_append.mp hc with hstr | hrest
  · intro he
    subst he
    have := hws _ hstr
    revert this
    decide
  · rcases List.mem_cons.mp hrest with rfl | hrest'
    · decide
    · rcases List.mem_append.mp hrest' with hd | hd2
      · exact natDigits_no_nl _ c hd
      · rcases List.mem_cons.mp hd2 with rfl | hd'
        · decide
        · exact natDigits_no_nl _ c hd'

theorem writeChunks (store : List SRec)
    (h : ∀ r ∈ store, ∀ c ∈ r.str, isWsChar c = false) :
    splitOnChar '\n' (writeToFile store) = store.map lineBody ++ [[]] := by
  induction store with
  | nil => rfl
  | cons r rest ih =>
    have hw : writeToFile (r :: rest) = lineBody r ++ '\n' :: writeToFile rest := by
      show (List.map recLine (r :: rest)).flatten = _
      rw [List.map_cons, List.flatten_cons, recLine_eq]
      show _ = lineBody r ++ '\n' :: (List.map recLine rest).flatten
      simp
    rw [hw, splitOnChar_no_sep '\n' _ _ (lineBody_no_nl (h r (by simp))),
      ih (fun x hx => h x (by simp [hx]))]
    simp

theorem readChunks_write (store : List SRec)
    (h : ∀ r ∈ store, ∀ c ∈ r.str, isWsChar c = false) :
    readChunks (writeToFile store) = store.map lineBody := by
  unfold readChunks
  dsimp only
  rw [writeChunks store h, List.getLast?_concat]
  simp

theorem parseLine_lineBody (today : ℕ) (r : SRec) (store : List SRec)
    (hne : r.str ≠ []) (hws : ∀ c ∈ r.str, isWsChar c = false)
    (hf : r.frequency < 65536) (ha : r.ageDays < 4294967296) :
    parseLine today (lineBody r) store =
      insertString today r.str r.frequency (some r.ageDays) store := by
  unfold parseLine lineBody
  rw [splitWs_line r.str (natDigits r.frequency) (natDigits r.ageDays) hne hws
    (natDigits_ne_nil _) (natDigits_no_ws _) (natDigits_ne_nil _) (natDigits_no_ws _)]
  simp only [List.getD_cons_zero, List.getD_cons_succ]
  rw [parse_natDigits (by omega : r.frequency ≤ 65535),
    parse_natDigits (by omega : r.ageDays ≤ 4294967295)]
  rw [trimChars_no_ws hws]
  rfl

theorem insertString_append (today : ℕ) (s : List Char) (freq a : ℕ)
    (store : List SRec) (hall : ∀ r ∈ store, lexCmp r.str s = .lt) :
    insertString today s freq (some a) store = store ++ [⟨s, freq, a⟩] := by
  have hbin : binSearch store (fun e => lexCmp e s) = store.length :=
    binSearchGo_all_lt store _ store.length 0 store.length (by omega) (by omega)
      (fun j _ hj2 => by
        rw [List.getD_eq_getElem store default hj2]
        exact hall _ (List.mem_iff_getElem.mpr ⟨j, hj2, rfl⟩))
  unfold insertString
  dsimp only
  rw [hbin, if_neg (fun hc => absurd hc.1 (lt_irrefl _))]
  simp [List.take_length, List.drop_length]

theorem foldl_parseLines (today : ℕ) : ∀ (rest acc : List SRec),
    storeSorted (acc ++ rest) →
    (∀ r ∈ rest, r.str ≠ [] ∧ (∀ c ∈ r.str, isWsChar c = false) ∧
      r.frequency < 65536 ∧ r.ageDays < 4294967296) →
    (rest.map lineBody).foldl (fun st ch => parseLine today ch st) acc = acc ++ rest
  | [], acc, _, _ => by simp
  | r :: rest, acc, hsort, hwf => by
    obtain ⟨hne, hws, hf, ha⟩ := hwf r (by simp)
    rw [List.map_cons, List.foldl_cons,
      parseLine_lineBody today r acc hne hws hf ha]
    have hlt : ∀ x ∈ acc, lexCmp x.str r.str = .lt := by
      intro x hx
      exact (List.pairwise_append.mp hsort).2.2 x hx r (by simp)
    rw [insertString_append today r.str r.frequency r.ageDays acc hlt]
    have hsort' : storeSorted ((acc ++ [r]) ++ rest) := by
      rw [List.append_assoc]
      simpa using hsort
    rw [foldl_parseLines today rest (acc ++ [r]) hsort'
      (fun x hx => hwf x (by simp [hx]))]
    simp

theorem roundTrip_eq (today : ℕ) (store : List SRec) (hsort : storeSorted store)
    (hwf : ∀ r ∈ store, r.str ≠ [] ∧ (∀ c ∈ r.str, isWsChar c = false) ∧
      r.frequency < 65536 ∧ r.ageDays < 4294967296) :
    readFromFile today (writeToFile store) = store := by
  unfold readFromFile
  rw [readChunks_write store (fun r hr => (hwf r hr).2.1)]
  simpa using foldl_parseLines today store [] (by simpa using hsort) hwf

/-! Soundness of the prefix scan and the prefix-bias ordering. -/

theorem prefixScanGo_sound (p : List Char) :
    ∀ (l : List SRec) (m : Bool) (r : SRec), r ∈ prefixScanGo p m l →
    r.str.take p.length = p
  | [], m, r, hr => by simp [prefixScanGo] at hr
  | x :: xs, m, r, hr => by
    rw [prefixScanGo] at hr
    split at hr
    · exact prefixScanGo_sound p xs m r hr
    · split at hr
      case isTrue htake =>
        rcases List.mem_cons.mp hr with rfl | hr'
        · exact htake
        · exact prefixScanGo_sound p xs true r hr'
      case isFalse =>
        split at hr
        · simp at hr
        · exact prefixScanGo_sound p xs m r hr

theorem prefixScanGo_sublist (p : List Char) :
    ∀ (l : List SRec) (m : Bool), (prefixScanGo p m l).Sublist l
  | [], _ => by simp [prefixScanGo]
  | x :: xs, m => by
    rw [prefixScanGo]
    split
    · exact (prefixScanGo_sublist p xs m).cons x
    · split
      · exact (prefixScanGo_sublist p xs true).cons₂ x
      · split
        · simp
        · exact (prefixScanGo_sublist p xs m).cons x

theorem startsWith_of_take {p s : List Char} (h : s.take p.length = p) :
    strStartsWith p s = true :=
  strStartsWith_iff.mpr (List.prefix_iff_eq_take.mpr h.symm)

theorem findByPrefixNoSort_sound (store : List SRec) (p : List Char) :
    ∀ r ∈ findByPrefixNoSort store p, strStartsWith p r.str = true := by
  intro r hr
  unfold findByPrefixNoSort at hr
  split at hr
  · simp at hr
  · exact startsWith_of_take (prefixScanGo_sound p _ false r hr)

theorem findByPrefixNoSort_sublist (store : List SRec) (p : List Char) :
    (findByPrefixNoSort store p).Sublist store := by
  unfold findByPrefixNoSort
  split
  · simp
  · exact (prefixScanGo_sublist p _ false).trans (List.drop_sublist _ _)

theorem prefixBiasLe_iff (q : List Char) (a b : ScoreCandidate) :
    prefixBiasLe q a b = true ↔ pKey q a ≤ pKey q b := by
  unfold prefixBiasLe prefixBiasCmp pKey
  cases hA : strStartsWith (lowerStr q) (lowerStr a.stringRef.str) <;>
    cases hB : strStartsWith (lowerStr q) (lowerStr b.stringRef.str) <;>
      cases hA2 : strStartsWith q a.stringRef.str <;>
        cases hB2 : strStartsWith q b.stringRef.str <;>
          simp_all

theorem prefixBiasLe_total (q : List Char) (a b : ScoreCandidate) :
    prefixBiasLe q a b = true ∨ prefixBiasLe q b a = true := by
  rw [prefixBiasLe_iff, prefixBiasLe_iff]
  omega

theorem prefixBiasLe_trans (q : List Char) (a b c : ScoreCandidate)
    (h1 : prefixBiasLe q a b = true) (h2 : prefixBiasLe q b c = true) :
    prefixBiasLe q a c = true := by
  rw [prefixBiasLe_iff] at *
  omega

theorem claimRel_of_le {q : List Char} {a b : ScoreCandidate}
    (h : prefixBiasLe q a b = true) :
    (strStartsWith (lowerStr q) (lowerStr b.stringRef.str) = true →
      strStartsWith (lowerStr q) (lowerStr a.stringRef.str) = true) ∧
    (strStartsWith (lowerStr q) (lowerStr a.stringRef.str) = true →
      strStartsWith (lowerStr q) (lowerStr b.stringRef.str) = true →
      strStartsWith q b.stringRef.str = true →
      strStartsWith q a.stringRef.str = true) := by
  rw [prefixBiasLe_iff] at h
  unfold pKey at h
  cases hA : strStartsWith (lowerStr q) (lowerStr a.stringRef.str) <;>
    cases hB : strStartsWith (lowerStr q) (lowerStr b.stringRef.str) <;>
      cases hA2 : strStartsWith q a.stringRef.str <;>
        cases hB2 : strStartsWith q b.stringRef.str <;>
          simp_all

theorem pairwise_of_all {α : Type _} {R : α → α → Prop} :
    ∀ l : List α, (∀ a ∈ l, ∀ b ∈ l, R a b) → List.Pairwise R l
  | [], _ => List.Pairwise.nil
  | x :: xs, h => by
    refine List.Pairwise.cons ?_ (pairwise_of_all xs ?_)
    · intro b hb
      exact h x (by simp) b (by simp [hb])
    · intro a ha b hb
      exact h a (by simp [ha]) b (by simp [hb])

/-! Distinctness of candidate strings through the pool and the merge. -/

theorem addUniqueGo_nodup : ∀ (cands acc : List ScoreCandidate)
    (seen : List (List Char)),
    (acc.map (fun c => c.stringRef.str)).Nodup →
    (∀ s ∈ acc.map (fun c => c.stringRef.str), s ∈ seen) →
    ((addUniqueGo cands acc seen).1.map (fun c => c.stringRef.str)).Nodup ∧
    (∀ s ∈ (addUniqueGo cands acc seen).1.map (fun c => c.stringRef.str),
      s ∈ (addUniqueGo cands acc seen).2)
  | [], acc, seen, hn, hs => ⟨hn, hs⟩
  | c :: cs, acc, seen, hn, hs => by
    rw [addUniqueGo]
    split
    · exact addUniqueGo_nodup cs acc seen hn hs
    case isFalse hnew =>
      refine addUniqueGo_nodup cs (acc ++ [c]) (c.stringRef.str :: seen) ?_ ?_
      · rw [List.map_append, List.nodup_append]
        refine ⟨hn, by simp, ?_⟩
        intro s hsa
        simp only [List.map_cons, List.map_nil, List.mem_cons, List.not_mem_nil,
          or_false, List.mem_singleton]
        intro he
        exact hnew (he ▸ hs s hsa)
      · intro s hsm
        rw [List.map_append] at hsm
        rcases List.mem_append.mp hsm with hsa | hsc
        · exact List.mem_cons_of_mem _ (hs s hsa)
        · simp only [List.map_cons, List.map_nil, List.mem_singleton] at hsc
          simp [hsc]

theorem progressive_nodup (store : List SRec) (q : List Char) (limit : ℕ) :
    ((progressiveExecution store q limit).map (fun c => c.stringRef.str)).Nodup := by
  unfold progressiveExecution
  have h1 := addUniqueGo_nodup ((scoredPrefixSearch store q).take limit) [] []
    (by simp) (by simp)
  have h2 := addUniqueGo_nodup (fuzzyFullDatabase store q limit (fN 0)) _ _ h1.1 h1.2
  have h3 := addUniqueGo_nodup
    (jaroFullDatabase store q limit (if utf8Len q ≤ 2 then fMk 6 10 else fMk 7 10))
    _ _ h2.1 h2.2
  exact h3.1

theorem mergeUpd_stringRef (e c : ScoreCandidate) :
    (mergeUpd e c).stringRef = e.stringRef := by
  unfold mergeUpd addAlt
  split <;> rfl

theorem updateFirstByStr_strs : ∀ (acc : List ScoreCandidate) (c : ScoreCandidate),
    (updateFirstByStr acc c).map (fun x => x.stringRef.str) =
      acc.map (fun x => x.stringRef.str)
  | [], _ => rfl
  | e :: es, c => by
    rw [updateFirstByStr]
    split
    · simp [mergeUpd_stringRef]
    · simp [updateFirstByStr_strs es c]

theorem mergeStep_nodup {acc : List ScoreCandidate} (c : ScoreCandidate)
    (hn : (acc.map (fun x => x.stringRef.str)).Nodup) :
    ((mergeStep acc c).map (fun x => x.stringRef.str)).Nodup := by
  unfold mergeStep
  split
  · rw [updateFirstByStr_strs]
    exact hn
  case isFalse hany =>
    rw [List.map_append, List.nodup_append]
    refine ⟨hn, by simp, ?_⟩
    intro s hsa
    simp only [List.map_cons, List.map_nil, List.mem_cons, List.not_mem_nil,
      or_false, List.mem_singleton]
    intro he
    obtain ⟨x, hx, hxs⟩ := List.mem_map.mp hsa
    exact hany (List.any_eq_true.mpr ⟨x, hx, by simp [hxs, he]⟩)

theorem mergeCandidates_nodup_aux : ∀ (cands acc : List ScoreCandidate),
    (acc.map (fun x => x.stringRef.str)).Nodup →
    ((cands.foldl mergeStep acc).map (fun x => x.stringRef.str)).Nodup
  | [], acc, hn => hn
  | c :: cs, acc, hn =>
    mergeCandidates_nodup_aux cs (mergeStep acc c) (mergeStep_nodup c hn)

theorem mergeCandidates_nodup (cands : List ScoreCandidate) :
    ((mergeCandidates cands).map (fun x => x.stringRef.str)).Nodup :=
  mergeCandidates_nodup_aux cands [] (by simp)

/-! No candidate ever carries a `Substring` score. -/

theorem fuzzySecondGo_noSub (mn mx thr : FRat) :
    ∀ (cap count : ℕ) (l : List (SRec × FRat)) (c : ScoreCandidate),
    c ∈ fuzzySecondGo mn mx thr cap count l → noSubCand c
  | cap, count, [], c, hc => by simp [fuzzySecondGo] at hc
  | cap, count, (r, raw) :: rest, c, hc => by
    rw [fuzzySecondGo] at hc
    split at hc
    · split at hc
      · rcases List.mem_singleton.mp hc with rfl
        exact ⟨by simp, by simp⟩
      · rcases List.mem_cons.mp hc with rfl | hc'
        · exact ⟨by simp, by simp⟩
        · exact fuzzySecondGo_noSub mn mx thr cap (count + 1) rest c hc'
    · exact fuzzySecondGo_noSub mn mx thr cap count rest c hc

theorem jaroGo_noSub (q : List Char) (thr : FRat) :
    ∀ (cap count : ℕ) (l : List SRec) (c : ScoreCandidate),
    c ∈ jaroGo q thr cap count l → noSubCand c
  | cap, count, [], c, hc => by simp [jaroGo] at hc
  | cap, count, r :: rest, c, hc => by
    rw [jaroGo] at hc
    dsimp only at hc
    split at hc
    · exact jaroGo_noSub q thr cap count rest c hc
    · split at hc
      · split at hc
        · rcases List.mem_singleton.mp hc with rfl
          exact ⟨by simp, by simp⟩
        · rcases List.mem_cons.mp hc with rfl | hc'
          · exact ⟨by simp, by simp⟩
          · exact jaroGo_noSub q thr cap (count + 1) rest c hc'
      · exact jaroGo_noSub q thr cap count rest c hc

theorem fuzzyFullDatabase_noSub (store : List SRec) (q : List Char)
    (target : ℕ) (thr : FRat) :
    ∀ c ∈ fuzzyFullDatabase store q target thr, noSubCand c := by
  intro c hc
  unfold fuzzyFullDatabase at hc
  split at hc
  · simp at hc
  · exact fuzzySecondGo_noSub _ _ _ _ _ _ c hc

theorem jaroFullDatabase_noSub (store : List SRec) (q : List Char)
    (target : ℕ) (thr : FRat) :
    ∀ c ∈ jaroFullDatabase store q target thr, noSubCand c := by
  intro c hc
  unfold jaroFullDatabase at hc
  exact jaroGo_noSub q thr _ _ _ c ((sSortBy_perm _ _).mem_iff.mp hc)

theorem scoredPrefixSearch_noSub (store : List SRec) (q : List Char) :
    ∀ c ∈ scoredPrefixSearch store q, noSubCand c := by
  intro c hc
  obtain ⟨r, _, hr⟩ := List.mem_filterMap.mp hc
  obtain ⟨sc, _, rfl⟩ := Option.map_eq_some'.mp hr
  exact ⟨by simp, by simp⟩

theorem addUniqueGo_mem : ∀ (cands acc : List ScoreCandidate)
    (seen : List (List Char)) (x : ScoreCandidate),
    x ∈ (addUniqueGo cands acc seen).1 → x ∈ acc ∨ x ∈ cands
  | [], acc, seen, x, hx => Or.inl hx
  | c :: cs, acc, seen, x, hx => by
    rw [addUniqueGo] at hx
    split at hx
    · rcases addUniqueGo_mem cs acc seen x hx with h | h
      · exact Or.inl h
      · exact Or.inr (by simp [h])
    · rcases addUniqueGo_mem cs (acc ++ [c]) _ x hx with h | h
      · rcases List.mem_append.mp h with h' | h'
        · exact Or.inl h'
        · exact Or.inr (by simp [List.mem_singleton.mp h'])
      · exact Or.inr (by simp [h])

theorem progressive_noSub (store : List SRec) (q : List Char) (limit : ℕ) :
    ∀ c ∈ progressiveExecution store q limit, noSubCand c := by
  intro c hc
  unfold progressiveExecution at hc
  rcases addUniqueGo_mem _ _ _ c hc with h2 | h3
  · rcases addUniqueGo_mem _ _ _ c h2 with h1 | hf
    · rcases addUniqueGo_mem _ _ _ c h1 with h0 | hp
      · simp at h0
      · exact scoredPrefixSearch_noSub store q c
          ((List.take_sublist _ _).mem hp)
    · exact fuzzyFullDatabase_noSub _ _ _ _ c hf
  · exact jaroFullDatabase_noSub _ _ _ _ c h3

theorem mergeUpd_noSub {e c : ScoreCandidate} (he : noSubCand e)
    (hc : noSubCand c) : noSubCand (mergeUpd e c) := by
  unfold mergeUpd addAlt
  split
  · refine ⟨hc.1, ?_⟩
    intro a ha
    rcases List.mem_append.mp ha with h | h
    · exact he.2 a h
    · rcases List.mem_singleton.mp h with rfl
      exact he.1
  · refine ⟨he.1, ?_⟩
    intro a ha
    rcases List.mem_append.mp ha with h | h
    · exact he.2 a h
    · rcases List.mem_singleton.mp h with rfl
      exact hc.1

theorem updateFirstByStr_noSub : ∀ (acc : List ScoreCandidate)
    (c : ScoreCandidate), (∀ x ∈ acc, noSubCand x) → noSubCand c →
    ∀ x ∈ updateFirstByStr acc c, noSubCand x
  | [], _, _, _, x, hx => by simp [updateFirstByStr] at hx
  | e :: es, c, hacc, hc, x, hx => by
    rw [updateFirstByStr] at hx
    split at hx
    · rcases List.mem_cons.mp hx with rfl | hx'
      · exact mergeUpd_noSub (hacc e (by simp)) hc
      · exact hacc x (by simp [hx'])
    · rcases List.mem_cons.mp hx with rfl | hx'
      · exact hacc x (by simp)
      · exact updateFirstByStr_noSub es c (fun y hy => hacc y (by simp [hy])) hc x hx'

theorem mergeCandidates_noSub_aux : ∀ (cands acc : List ScoreCandidate),
    (∀ x ∈ acc, noSubCand x) → (∀ x ∈ cands, noSubCand x) →
    ∀ x ∈ cands.foldl mergeStep acc, noSubCand x
  | [], acc, hacc, _, x, hx => hacc x hx
  | c :: cs, acc, hacc, hcands, x, hx => by
    refine mergeCandidates_noSub_aux cs (mergeStep acc c) ?_
      (fun y hy => hcands y (by simp [hy])) x hx
    intro y hy
    unfold mergeStep at hy
    split at hy
    · exact updateFirstByStr_noSub acc c hacc (hcands c (by simp)) y hy
    · rcases List.mem_append.mp hy with h | h
      · exact hacc y h
      · rcases List.mem_singleton.mp h with rfl
        exact hcands y (by simp)

theorem mergeCandidates_noSub (cands : List ScoreCandidate)
    (h : ∀ x ∈ cands, noSubCand x) :
    ∀ x ∈ mergeCandidates cands, noSubCand x :=
  mergeCandidates_noSub_aux cands [] (by simp) h

theorem algoMaxima_fold_noSub :
    ∀ (alts : List AlternativeScore) (acc : FRat × FRat × FRat × FRat),
    (∀ a ∈ alts, a.algorithm ≠ .Substring) →
    (alts.foldl (fun acc alt =>
      match alt.algorithm with
      | .Prefix => (fMaxF acc.1 alt.normalizedScore, acc.2.1, acc.2.2.1, acc.2.2.2)
      | .FuzzySubseq => (acc.1, fMaxF acc.2.1 alt.normalizedScore, acc.2.2.1, acc.2.2.2)
      | .JaroWinkler => (acc.1, acc.2.1, fMaxF acc.2.2.1 alt.normalizedScore, acc.2.2.2)
      | .Substring => (acc.1, acc.2.1, acc.2.2.1, fMaxF acc.2.2.2 alt.normalizedScore))
      acc).2.2.2 = acc.2.2.2
  | [], _, _ => rfl
  | a :: alts, acc, h => by
    rw [List.foldl_cons]
    rcases ha : a.algorithm
    · exact algoMaxima_fold_noSub alts _ (fun x hx => h x (by simp [hx]))
    · exact algoMaxima_fold_noSub alts _ (fun x hx => h x (by simp [hx]))
    · exact algoMaxima_fold_noSub alts _ (fun x hx => h x (by simp [hx]))
    · exact absurd ha (h a (by simp))

theorem substringMaxOf_eq_zero {c : ScoreCandidate} (h : noSubCand c) :
    substringMaxOf c = fN 0 := by
  unfold substringMaxOf algoMaxima
  rw [algoMaxima_fold_noSub c.alternativeScores _ h.2]
  dsimp only
  rw [if_neg h.1]

/-! Determinism of the ranking pipeline up to tied final scores. -/

theorem applyMeta_den_pos (lnQ : FRat → FRat) (today : ℕ) (weighted : FRat)
    (freq age candLen qLen maxLen : ℕ) :
    0 < (applyMetadataAdjustments lnQ today weighted freq age candLen qLen maxLen).den := by
  unfold applyMetadataAdjustments
  exact fClamp_den_pos (fMul_den_pos _ _) (fN_den_pos 0) (fN_den_pos 2)

theorem calcFinalScore_den (lnQ : FRat → FRat) (today maxLen : ℕ)
    (q : List Char) (c : ScoreCandidate) :
    0 < (calcFinalScore lnQ today maxLen q c).finalScore.den :=
  applyMeta_den_pos _ _ _ _ _ _ _ _

theorem fEq_symm {a b : FRat} (h : fEq a b) : fEq b a := by
  unfold fEq at h ⊢
  exact h.symm

theorem rankLe_total (a b : ScoreCandidate) :
    rankLe a b = true ∨ rankLe b a = true := by
  unfold rankLe
  rcases fLe_total b.finalScore a.finalScore with h | h
  · exact Or.inl (by simpa using h)
  · exact Or.inr (by simpa using h)

theorem rankLe_trans {a b c : ScoreCandidate} (hden : 0 < b.finalScore.den)
    (h1 : rankLe a b = true) (h2 : rankLe b c = true) : rankLe a c = true := by
  unfold rankLe at *
  simp only [decide_eq_true_eq] at *
  exact fLe_trans hden h2 h1

theorem rankSort_unique (lnQ : FRat → FRat) (today : ℕ) (store : List SRec)
    (q : List Char) (lim : ℕ)
    (f g : List ScoreCandidate → List ScoreCandidate)
    (hf : ∀ l, (f l).Perm l) (hg : ∀ l, (g l).Perm l)
    (hdist : List.Pairwise (fun x y => ¬ fEq x.finalScore y.finalScore)
      (mergedScored lnQ today store q lim)) :
    sSortBy rankLe ((f (mergeCandidates (progressiveExecution store q lim))).map
      (calcFinalScore lnQ today (maxStrLen store) q)) =
    sSortBy rankLe ((g (mergeCandidates (progressiveExecution store q lim))).map
      (calcFinalScore lnQ today (maxStrLen store) q)) := by
  have hMf : ((f (mergeCandidates (progressiveExecution store q lim))).map
      (calcFinalScore lnQ today (maxStrLen store) q)).Perm
      (mergedScored lnQ today store q lim) :=
    (hf _).map _
  have hMg : ((g (mergeCandidates (progressiveExecution store q lim))).map
      (calcFinalScore lnQ today (maxStrLen store) q)).Perm
      (mergedScored lnQ today store q lim) :=
    (hg _).map _
  have hdenM : ∀ x ∈ mergedScored lnQ today store q lim,
      0 < x.finalScore.den := by
    intro x hx
    obtain ⟨c, _, rfl⟩ := List.mem_map.mp hx
    exact calcFinalScore_den _ _ _ _ _
  have hanti : ∀ a b, a ∈ mergedScored lnQ today store q lim →
      b ∈ mergedScored lnQ today store q lim →
      rankLe a b = true → rankLe b a = true → a = b := by
    intro a b ha hb h1 h2
    by_contra hne
    have hsym : Symmetric (fun x y : ScoreCandidate =>
        ¬ fEq x.finalScore y.finalScore) := by
      intro x y h hyx
      exact h (fEq_symm hyx)
    have hne' := List.Pairwise.forall hsym hdist ha hb hne
    have h1' : fLe b.finalScore a.finalScore := by simpa [rankLe] using h1
    have h2' : fLe a.finalScore b.finalScore := by simpa [rankLe] using h2
    exact hne' (fLe_antisymm h2' h1')
  have hsorted : ∀ (h : List ScoreCandidate → List ScoreCandidate)
      (hh : ∀ l, (h l).Perm l),
      List.Pairwise (fun a b => rankLe a b = true)
        (sSortBy rankLe ((h (mergeCandidates (progressiveExecution store q lim))).map
          (calcFinalScore lnQ today (maxStrLen store) q))) := by
    intro h hh
    refine sSortBy_pairwise rankLe _ (fun a b _ _ => rankLe_total a b) ?_
    intro a b c ha hb hc h1 h2
    have hbM : b ∈ mergedScored lnQ today store q lim :=
      (((hh _).map (calcFinalScore lnQ today (maxStrLen store) q)).mem_iff).mp hb
    exact rankLe_trans (hdenM b hbM) h1 h2
  refine sorted_perm_unique rankLe _ _ ?_ (hsorted f hf) (hsorted g hg) ?_
  · exact ((sSortBy_perm _ _).trans hMf).trans
      (hMg.symm.trans (sSortBy_perm _ _).symm)
  · intro a b ha hb h1 h2
    have haM : a ∈ mergedScored lnQ today store q lim :=
      (((sSortBy_perm _ _).trans hMf).mem_iff).mp ha
    have hbM : b ∈ mergedScored lnQ today store q lim :=
      (((sSortBy_perm _ _).trans hMf).mem_iff).mp hb
    exact hanti a b haM hbM h1 h2

theorem bestCompletions_det (lnQ : FRat → FRat) (today : ℕ) (store : List SRec)
    (q : List Char) (limit : Option ℕ)
    (f g : List ScoreCandidate → List ScoreCandidate)
    (hf : ∀ l, (f l).Perm l) (hg : ∀ l, (g l).Perm l)
    (hdist : List.Pairwise (fun x y => ¬ fEq x.finalScore y.finalScore)
      (mergedScored lnQ today store q (limit.getD 15))) :
    bestCompletions f lnQ today store q limit =
      bestCompletions g lnQ today store q limit := by
  unfold bestCompletions
  dsimp only
  by_cases h1 : store.isEmpty
  · rw [if_pos h1, if_pos h1]
  · rw [if_neg h1, if_neg h1]
    by_cases h2 : (!validateQuery q) = true
    · rw [if_pos h2, if_pos h2]
    · rw [if_neg h2, if_neg h2]
      by_cases h3 : utf8Len q = 1
      · rw [if_pos h3, if_pos h3]
      · rw [if_neg h3, if_neg h3]
        by_cases h4 : (progressiveExecution store q (limit.getD 15)).isEmpty
        · rw [if_pos h4, if_pos h4]
        · rw [if_neg h4, if_neg h4]
          rw [rankSort_unique lnQ today store q (limit.getD 15) f g hf hg hdist]

/-! Sortedness of `fuzzy_subsequence_search` by its own score. -/

theorem scoreMatchSpan_den_pos (idx : List ℕ) (bl : ℕ) :
    0 < (scoreMatchSpan idx bl).den := by
  unfold scoreMatchSpan
  split
  · exact Nat.one_pos
  · exact fAdd_den_pos _ _

theorem fuzzySubseqSearch_facts (store : List SRec) (q : List Char) :
    (∀ r ∈ fuzzySubseqSearch store q, isSubseqIdx q r.str ≠ none) ∧
    List.Pairwise (fun a b =>
      fLe (scoreMatchSpan ((isSubseqIdx q a.str).getD []) (utf8Len a.str))
        (scoreMatchSpan ((isSubseqIdx q b.str).getD []) (utf8Len b.str)))
      (fuzzySubseqSearch store q) := by
  unfold fuzzySubseqSearch
  split
  · simp
  · dsimp only
    have hfound : ∀ x ∈ (findByPrefixNoSort store (q.take 1)).filterMap (fun r =>
        match isSubseqIdx q r.str with
        | some idx => some (r, scoreMatchSpan idx (utf8Len r.str))
        | none => none),
        ∃ idx, isSubseqIdx q x.1.str = some idx ∧
          x.2 = scoreMatchSpan idx (utf8Len x.1.str) := by
      intro x hx
      obtain ⟨r, _, hs⟩ := List.mem_filterMap.mp hx
      rcases hidx : isSubseqIdx q r.str with _ | idx <;> rw [hidx] at hs
      · simp at hs
      · simp only [Option.some.injEq] at hs
        subst hs
        exact ⟨idx, hidx, rfl⟩
    have hsorted := sSortBy_pairwise (fun a b => decide (fLe a.2 b.2))
      ((findByPrefixNoSort store (q.take 1)).filterMap (fun r =>
        match isSubseqIdx q r.str with
        | some idx => some (r, scoreMatchSpan idx (utf8Len r.str))
        | none => none))
      (fun a b _ _ => by
        rcases fLe_total a.2 b.2 with h | h
        · exact Or.inl (by simpa using h)
        · exact Or.inr (by simpa using h))
      (fun a b c _ hb _ h1 h2 => by
        simp only [decide_eq_true_eq] at *
        obtain ⟨idx, _, hbs⟩ := hfound b hb
        have : 0 < b.2.den := by rw [hbs]; exact scoreMatchSpan_den_pos _ _
        exact fLe_trans this h1 h2)
    constructor
    · intro r hr
      obtain ⟨x, hx, rfl⟩ := List.mem_map.mp hr
      have hx' := (List.take_sublist _ _).mem hx
      obtain ⟨idx, hidx, _⟩ := hfound x ((sSortBy_perm _ _).mem_iff.mp hx')
      simp [hidx]
    · refine List.pairwise_map.mpr ?_
      have hp := List.Pairwise.sublist (List.take_sublist 10 _) hsorted
      refine hp.imp_of_mem ?_
      intro x y hx hy hxy
      have hxm := (sSortBy_perm _ _).mem_iff.mp ((List.take_sublist _ _).mem hx)
      have hym := (sSortBy_perm _ _).mem_iff.mp ((List.take_sublist _ _).mem hy)
      obtain ⟨ix, hix, hxs⟩ := hfound x hxm
      obtain ⟨iy, hiy, hys⟩ := hfound y hym
      simp only [decide_eq_true_eq] at hxy
      rw [hix, hiy]
      simp only [Option.getD_some]
      rw [← hxs, ← hys]
      exact hxy

/-! The claims. -/

/-- C1: for every store state, query and limit `n`, `best_completions(q, Some
n)` returns at most `n` records, and in the returned list every record whose
bytes begin with `q` case-insensitively precedes every record whose bytes do
not; within the case-insensitive prefix class, exact-case prefix matches
precede case-variant ones.  Quantified over the hash-map iteration order
`reorder` and the `ln` model `lnQ`, neither of which the property depends
on. -/
theorem c1_limit_and_prefix_bias
    (reorder : List ScoreCandidate → List ScoreCandidate) (lnQ : FRat → FRat)
    (today : ℕ) (store : List SRec) (q : List Char) (n : ℕ) :
    (bestCompletions reorder lnQ today store q (some n)).length ≤ n ∧
    List.Pairwise (fun a b : SRec =>
      (strStartsWith (lowerStr q) (lowerStr b.str) = true →
        strStartsWith (lowerStr q) (lowerStr a.str) = true) ∧
      (strStartsWith (lowerStr q) (lowerStr a.str) = true →
        strStartsWith (lowerStr q) (lowerStr b.str) = true →
        strStartsWith q b.str = true → strStartsWith q a.str = true))
      (bestCompletions reorder lnQ today store q (some n)) := by
  unfold bestCompletions
  simp only [Option.getD_some]
  split
  · simp
  · split
    · simp
    · split
      case isTrue =>
        constructor
        · unfold handleSingleCharQuery
          exact List.length_take_le _ _
        · refine pairwise_of_all _ ?_
          have hmem : ∀ r ∈ handleSingleCharQuery store q n,
              strStartsWith q r.str = true := by
            intro r hr
            unfold handleSingleCharQuery at hr
            exact findByPrefixNoSort_sound store q r
              ((sSortBy_perm _ _).mem_iff.mp ((List.take_sublist _ _).mem hr))
          intro a ha b hb
          exact ⟨fun _ => strStartsWith_lower (hmem a ha),
            fun _ _ _ => hmem a ha⟩
      case isFalse =>
        split
        · simp
        · constructor
          · rw [List.length_map]
            exact List.length_take_le _ _
          · refine List.pairwise_map.mpr ?_
            refine List.Pairwise.imp (fun h => claimRel_of_le h) ?_
            refine List.Pairwise.sublist (List.take_sublist n _) ?_
            exact sSortBy_pairwise (prefixBiasLe q) _
              (fun a b _ _ => prefixBiasLe_total q a b)
              (fun a b c _ _ _ => prefixBiasLe_trans q a b c)

/-- C2, counterexample: the Jaro–Winkler weight actually used for very short
queries is `0.15 * jaro_multiplier = 0.15 * 0.0 = 0`, not the claimed
`0.15`. -/
theorem c2_counterexample :
    ¬ fEq (forCategory .VeryShort).jaroWinklerW (fMk 15 100) := by decide

/-- C2, amended: with the source's hard-coded multipliers (`fuzzy` 1.0,
`jaro` 0.0) the weights actually used are, per category (prefix, fuzzy,
jaro, substring): very short (0.585, 0.35, 0, 0.065); short (0.56, 0.30, 0,
0.14); medium (0.525, 0.25, 0, 0.225); long (4/9, 0.20, 0, 16/45); and the
ranker selects them by the byte-length category of the query. -/
theorem c2_actual_weights :
    (fEq (forCategory .VeryShort).prefixW (fMk 117 200) ∧
      fEq (forCategory .VeryShort).fuzzySubseqW (fMk 35 100) ∧
      fEq (forCategory .VeryShort).jaroWinklerW (fN 0) ∧
      fEq (forCategory .VeryShort).substringW (fMk 13 200)) ∧
    (fEq (forCategory .Short).prefixW (fMk 14 25) ∧
      fEq (forCategory .Short).fuzzySubseqW (fMk 30 100) ∧
      fEq (forCategory .Short).jaroWinklerW (fN 0) ∧
      fEq (forCategory .Short).substringW (fMk 7 50)) ∧
    (fEq (forCategory .Medium).prefixW (fMk 21 40) ∧
      fEq (forCategory .Medium).fuzzySubseqW (fMk 25 100) ∧
      fEq (forCategory .Medium).jaroWinklerW (fN 0) ∧
      fEq (forCategory .Medium).substringW (fMk 9 40)) ∧
    (fEq (forCategory .Long).prefixW (fMk 4 9) ∧
      fEq (forCategory .Long).fuzzySubseqW (fMk 20 100) ∧
      fEq (forCategory .Long).jaroWinklerW (fN 0) ∧
      fEq (forCategory .Long).substringW (fMk 16 45)) ∧
    (∀ q : List Char, getDynamicWeights q = forCategory (queryCategory q)) :=
  ⟨by decide, by decide, by decide, by decide, fun _ => rfl⟩

/-- C3: re-inserting an existing string mutates the single entry in place and
sets `age_days` to today, but the frequency addition is an unchecked `u16`
`+=`, which wraps modulo 2¹⁶ in release builds (and panics in debug) instead
of saturating: after `insert("abc", 0xFFFF); insert("abc", 1)` the single
entry's frequency is `0`, not `min(0xFFFF + 1, 0xFFFF) = 0xFFFF`. -/
theorem c3_frequency_wraps :
    insertString 20000 "abc".data 1 none
        (insertString 20000 "abc".data 65535 none []) =
      [⟨"abc".data, 0, 20000⟩] ∧
    (0 : ℕ) ≠ min (65535 + 1) 65535 := by decide

set_option maxRecDepth 8000 in
/-- C4, counterexample: for the store `{"xayz"}` and query `"ay"`, the pooled
record contains the query as a substring at byte position 1 (claimed
normalised score `1 - 1/(4-2) = 1/2`), yet the substring component entering
its weighted combination is `0`: `collect_detailed_scores` is never invoked
by `best_completions`. -/
theorem c4_counterexample :
    ∃ c ∈ mergeCandidates (progressiveExecution stSub "ay".data 10),
      strFind "ay".data c.stringRef.str = some 1 ∧
      ¬ fEq (substringMaxOf c)
        (fSub (fN 1)
          (fDiv (fN 1) (fN (utf8Len c.stringRef.str - utf8Len "ay".data)))) := by
  decide

/-- C4, amended: no candidate of the `best_completions` pipeline ever carries
a `Substring` score, so the substring component of every merged candidate's
weighted combination is `0`. -/
theorem c4_no_substring_component (store : List SRec) (q : List Char)
    (lim : ℕ) :
    ∀ c ∈ mergeCandidates (progressiveExecution store q lim),
      substringMaxOf c = fN 0 := by
  intro c hc
  exact substringMaxOf_eq_zero
    (mergeCandidates_noSub _ (progressive_noSub store q lim) c hc)

set_option maxRecDepth 8000 in
/-- C4, witness for the amended theorem at the concrete store `{"xayz"}`. -/
theorem c4_witness :
    substringMaxOf ((mergeCandidates (progressiveExecution stSub "ay".data 10)).getD 0
      ⟨⟨[], 0, 0⟩, .Prefix, fN 0, fN 0, fN 0, []⟩) = fN 0 :=
  c4_no_substring_component stSub "ay".data 10 _ (by decide)

/-- C5, counterexample: on the store `{"hhhl", "hl" ++ 28 × 'a'}` with query
`"hl"`, the list `fuzzy_subsequence_search` returns is NOT sorted ascending
by the claimed average-gap-over-length score (the source sorts by
`score_match_span`, the span-plus-tenth-of-byte-length score, which orders
these two candidates oppositely). -/
theorem c5_counterexample :
    ¬ List.Pairwise (fun a b =>
      fLe (specMatchSpanScore "hl".data a.str) (specMatchSpanScore "hl".data b.str))
      (fuzzySubseqSearch stSpan "hl".data) := by
  decide

/-- C5, amended: `fuzzy_subsequence_search(q)` returns only records of which
`q` is a subsequence, sorted ascending by the score it actually computes:
`score_match_span` = (last match index − first match index + 1) + 0.1 × byte
length of the record. -/
theorem c5_subsequence_and_span_sorted (store : List SRec) (q : List Char) :
    (∀ r ∈ fuzzySubseqSearch store q, isSubseqIdx q r.str ≠ none) ∧
    List.Pairwise (fun a b =>
      fLe (scoreMatchSpan ((isSubseqIdx q a.str).getD []) (utf8Len a.str))
        (scoreMatchSpan ((isSubseqIdx q b.str).getD []) (utf8Len b.str)))
      (fuzzySubseqSearch store q) :=
  fuzzySubseqSearch_facts store q

/-- C5, witness: the first returned record for the concrete store is indeed a
subsequence match. -/
theorem c5_witness :
    isSubseqIdx "hl".data
      ((fuzzySubseqSearch stSpan "hl".data).getD 0 default).str ≠ none :=
  (c5_subsequence_and_span_sorted stSpan "hl".data).1 _ (by decide)

/-- C6, counterexample: a store may hold a record whose bytes contain a
space (`insert` only checks length); `persist` then `load` re-splits the line
on whitespace, so the record `("ab ", 5, 7)` comes back as `("ab", 5, 7)` —
not a permutation of the original store. -/
theorem c6_counterexample :
    ¬ (readFromFile 20000 (writeToFile stSpace)).Perm stSpace := by decide

/-- C6, amended: for every store satisfying the index invariant (strictly
sorted, hence distinct) whose records' bytes are non-empty, contain no
whitespace, and whose metadata fit their integer types, persist–clear–load
reproduces the store exactly (hence as a permutation). -/
theorem c6_roundtrip (today : ℕ) (store : List SRec)
    (hsort : storeSorted store)
    (hwf : ∀ r ∈ store, r.str ≠ [] ∧ (∀ c ∈ r.str, isWsChar c = false) ∧
      r.frequency < 65536 ∧ r.ageDays < 4294967296) :
    (readFromFile today (writeToFile store)).Perm store := by
  rw [roundTrip_eq today store hsort hwf]

/-- C6, witness at a concrete two-record store. -/
theorem c6_witness : (readFromFile 20000 (writeToFile stRT)).Perm stRT :=
  c6_roundtrip 20000 stRT (by unfold storeSorted; decide) (by decide)

/-- C7: after any sequence of inserts starting from the empty store, the
index is strictly sorted in lexicographic byte order and no two entries
point at equal byte sequences. -/
theorem c7_insert_sorted_nodup (today : ℕ) (ops : List (List Char × ℕ)) :
    storeSorted (ops.foldl (fun st op => insertString today op.1 op.2 none st) []) ∧
    ((ops.foldl (fun st op => insertString today op.1 op.2 none st) []).map
      (fun r => r.str)).Nodup := by
  have h := foldl_insert_sorted today ops [] List.Pairwise.nil
  exact ⟨h, storeSorted_nodup h⟩

set_option maxRecDepth 8000 in
/-- C8, counterexample: with the symmetric store `{"aax", "aay"}` and query
`"aa"` both candidates receive identical final scores, so the output order
is decided by the `HashMap::into_values` iteration order: the insertion
order and its reverse (both permutations of the map's values) yield
different result lists.  (`lnZero` stands for `f64::ln`; by symmetry the two
final scores are equal for every choice of that function.) -/
theorem c8_counterexample :
    bestCompletions id lnZero 20000 stTie "aa".data (some 10) ≠
      bestCompletions List.reverse lnZero 20000 stTie "aa".data (some 10) := by
  decide

/-- C8, amended: whenever the merged candidates' final scores are pairwise
distinct, `best_completions` is deterministic: any two hash-map iteration
orders (any two permutation-producing `reorder`s) yield identical result
lists. -/
theorem c8_deterministic_on_distinct_scores (lnQ : FRat → FRat) (today : ℕ)
    (store : List SRec) (q : List Char) (limit : Option ℕ)
    (f g : List ScoreCandidate → List ScoreCandidate)
    (hf : ∀ l, (f l).Perm l) (hg : ∀ l, (g l).Perm l)
    (hdist : List.Pairwise (fun x y => ¬ fEq x.finalScore y.finalScore)
      (mergedScored lnQ today store q (limit.getD 15))) :
    bestCompletions f lnQ today store q limit =
      bestCompletions g lnQ today store q limit :=
  bestCompletions_det lnQ today store q limit f g hf hg hdist

set_option maxRecDepth 8000 in
/-- C8, witness: a concrete store with distinct final scores, compared under
the identity order and the reversed order. -/
theorem c8_witness :
    bestCompletions id lnZero 20000 stDistinct "ab".data (some 10) =
      bestCompletions List.reverse lnZero 20000 stDistinct "ab".data (some 10) :=
  c8_deterministic_on_distinct_scores lnZero 20000 stDistinct "ab".data
    (some 10) id List.reverse (fun l => List.Perm.refl l)
    (fun l => List.reverse_perm l) (by decide)

/-- C9: the dispatcher's `insert` arm calls `.unwrap()` on the post-insert
`write_to_file`, so a failing write after a successful insert panics before
any response is produced (modelled as `none`), instead of logging the error
and reporting success; with a succeeding write the OK response is sent. -/
theorem c9_insert_write_unwrap :
    createResponseInsert 20000 [] ["hello".data] false = none ∧
    createResponseInsert 20000 [] ["hello".data] true =
      some ("OK\nInserted ".data ++ natDigits 1 ++ " of ".data ++
        natDigits 1 ++ " words".data) := by decide

/-- C10: the list returned by `best_completions` never contains two records
with the same string bytes — the pool is de-duplicated by string and the
merge is keyed by string (the single-character path relies on the store
invariant that entries are distinct, hence the `Nodup` hypothesis). -/
theorem c10_no_duplicate_results
    (reorder : List ScoreCandidate → List ScoreCandidate) (lnQ : FRat → FRat)
    (today : ℕ) (store : List SRec) (q : List Char) (limit : Option ℕ)
    (hperm : ∀ l, (reorder l).Perm l)
    (hstore : (store.map (fun r => r.str)).Nodup) :
    ((bestCompletions reorder lnQ today store q limit).map
      (fun r => r.str)).Nodup := by
  unfold bestCompletions
  dsimp only
  split
  · simp
  · split
    · simp
    · split
      case isTrue =>
        have h1 : ((findByPrefixNoSort store q).map (fun r => r.str)).Nodup :=
          ((findByPrefixNoSort_sublist store q).map _).nodup hstore
        have h2 : ((sSortBy freqDescLe (findByPrefixNoSort store q)).map
            (fun r => r.str)).Nodup :=
          h1.perm ((sSortBy_perm freqDescLe (findByPrefixNoSort store q)).map
            (fun r : SRec => r.str)).symm
        unfold handleSingleCharQuery
        rw [List.map_take]
        exact (List.take_sublist _ _).nodup h2
      case isFalse =>
        split
        · simp
        · have h0 : ((mergeCandidates (progressiveExecution store q
              (limit.getD 15))).map (fun c => c.stringRef.str)).Nodup :=
            mergeCandidates_nodup _
          have h1 : ((reorder (mergeCandidates (progressiveExecution store q
              (limit.getD 15)))).map (fun c => c.stringRef.str)).Nodup :=
            h0.perm ((hperm _).map (fun c => c.stringRef.str)).symm
          have h2 : (((reorder (mergeCandidates (progressiveExecution store q
              (limit.getD 15)))).map (calcFinalScore lnQ today (maxStrLen store) q)).map
              (fun c => c.stringRef.str)).Nodup := by
            rw [List.map_map]
            have hco : ((fun c : ScoreCandidate => c.stringRef.str) ∘
                calcFinalScore lnQ today (maxStrLen store) q) =
                (fun c => c.stringRef.str) := funext (fun c => rfl)
            rw [hco]
            exact h1
          have h3 := h2.perm ((sSortBy_perm rankLe _).map
            (fun c => c.stringRef.str)).symm
          have h4 := h3.perm ((sSortBy_perm (prefixBiasLe q) _).map
            (fun c => c.stringRef.str)).symm
          rw [List.map_map]
          have hco2 : ((fun r : SRec => r.str) ∘ (fun c : ScoreCandidate =>
              c.stringRef)) = (fun c : ScoreCandidate => c.stringRef.str) :=
            funext (fun c => rfl)
          rw [hco2, List.map_take]
          exact (List.take_sublist _ _).nodup h4

set_option maxRecDepth 8000 in
/-- C10, witness at a concrete store with distinct strings. -/
theorem c10_witness :
    ((bestCompletions id lnZero 20000 stDistinct "ab".data (some 10)).map
      (fun r => r.str)).Nodup :=
  c10_no_duplicate_results id lnZero 20000 stDistinct "ab".data (some 10)
    (fun l => List.Perm.refl l) (by decide)

set_option maxRecDepth 8000 in
/-- C1, witness at a concrete store and query. -/
theorem c1_witness :
    (bestCompletions id lnZero 20000 stDistinct "ab".data (some 10)).length ≤ 10 ∧
    List.Pairwise (fun a b : SRec =>
      (strStartsWith (lowerStr "ab".data) (lowerStr b.str) = true →
        strStartsWith (lowerStr "ab".data) (lowerStr a.str) = true) ∧
      (strStartsWith (lowerStr "ab".data) (lowerStr a.str) = true →
        strStartsWith (lowerStr "ab".data) (lowerStr b.str) = true →
        strStartsWith "ab".data b.str = true →
        strStartsWith "ab".data a.str = true))
      (bestCompletions id lnZero 20000 stDistinct "ab".data (some 10)) :=
  c1_limit_and_prefix_bias id lnZero 20000 stDistinct "ab".data 10

/-- C2, witness: the dispatch clause instantiated at the query `"ab"`. -/
theorem c2_witness :
    getDynamicWeights "ab".data = forCategory (queryCategory "ab".data) :=
  c2_actual_weights.2.2.2.2 "ab".data

/-- C7, witness at a concrete insert sequence. -/
theorem c7_witness :
    storeSorted ([("abc".data, (2 : ℕ)), ("abd".data, 1), ("abc".data, 3)].foldl
      (fun st op => insertString 20000 op.1 op.2 none st) []) ∧
    (([("abc".data, (2 : ℕ)), ("abd".data, 1), ("abc".data, 3)].foldl
      (fun st op => insertString 20000 op.1 op.2 none st) []).map
        (fun r => r.str)).Nodup :=
  c7_insert_sorted_nodup 20000 [("abc".data, 2), ("abd".data, 1), ("abc".data, 3)]
